import Mathlib

/-!
Shallow embedding of the weak-nlp classification engine
(`weak_nlp/classification/__init__.py`): the noisy-label-matrix quality,
quantity and weak-supervision (ensemble) computations, together with
theorems checking the specification's statements against the code.

Conventions of the embedding:
* pandas/numpy numbers are modelled exactly: confidences and precisions as
  rationals, the final sigmoid over the reals;
* a nullable cell (pandas `NaN`) is an `Option`;
* a Python `dict` is an insertion-ordered association list;
* Python exceptions are the `Except` monad: `Err.keyError` models `KeyError`
  (and the positional lookup of `.iloc[0]`), `Err.duplicateAxis` the pandas
  "cannot reindex on an axis with duplicate labels" `ValueError`.
-/

namespace WeakNlp

/-- Per-label quality counters held in a `SourceVector.quality` slot. -/
structure QualityEntry where
  true_positives : Nat
  false_positives : Nat
deriving DecidableEq, Repr

/-- Per-label quantity counters held in a `SourceVector.quantity` slot. -/
structure QuantityEntry where
  record_coverage : Nat
  source_overlaps : Nat
  source_conflicts : Nat
deriving DecidableEq, Repr

/-- One source's claim about one record (`weak_nlp.Association` /
`ClassificationAssociation`).  A missing label (pandas `NaN`) is `none`. -/
structure Association where
  record : String
  label : Option String
  confidence : ℚ
deriving DecidableEq, Repr

/-- Modelled from the spec: the `weak_nlp.Association` constructor lives in
`weak_nlp/__init__.py`, which is not under `src/`.  Per the spec,
`confidence ∈ [0,1]` or absent/null, and an absent confidence is treated as
neutral weight 1 downstream. -/
def mkAssociation (record : String) (label : Option String)
    (confidence : Option ℚ) : Association :=
  ⟨record, label, confidence.getD 1⟩

/-- A source's vector of associations.  The base class `weak_nlp.SourceVector`
is not under `src/`; its fields are modelled from the spec: identifier,
associations, `is_empty`, and the two derived `quality`/`quantity` slots,
which start out without entries and are populated in place by the engines.
The `prediction` field models the extra `"prediction"` column that
`weakly_supervise` writes into the `associations` dataframe (row-aligned
with `associations`; `none` while the column is absent). -/
structure SourceVector where
  identifier : String
  associations : List Association
  is_empty : Bool
  prediction : Option (List (String × ℚ))
  quality : List (String × QualityEntry)
  quantity : List (String × QuantityEntry)
deriving DecidableEq, Repr

/-- The classification noisy label matrix (`CNLM`).  The base class
`weak_nlp.NoisyLabelMatrix` is not under `src/`; its fields are modelled from
the spec: an ordered sequence of noisy vectors, an optional reference vector,
and the universe of records. -/
structure CNLM where
  vectors_noisy : List SourceVector
  vector_reference : Option SourceVector
  records : List String
deriving DecidableEq, Repr

/-- The exceptions the engine can raise. -/
inductive Err where
  /-- `Exception("Can't calculate the quality metrics without reference vector")`. -/
  | missingReference
  /-- `Exception("Empty statistics; can't compute weak supervision")`. -/
  | emptyStatistics
  /-- Python `KeyError` on a dict lookup (also used for the unreachable
  `.iloc[0]` `IndexError`). -/
  | keyError
  /-- pandas `ValueError`: cannot reindex on an axis with duplicate labels. -/
  | duplicateAxis
deriving DecidableEq, Repr

instance {ε α : Type} [DecidableEq ε] [DecidableEq α] : DecidableEq (Except ε α)
  | .ok a, .ok b => decidable_of_iff (a = b) (by simp)
  | .ok _, .error _ => isFalse (by simp)
  | .error _, .ok _ => isFalse (by simp)
  | .error e, .error f => decidable_of_iff (e = f) (by simp)

/-- Helper for `uniqueFirst`: drop the elements already seen. -/
def uniqueFirstAux {α : Type} [DecidableEq α] (seen : List α) :
    List α → List α
  | [] => []
  | a :: l =>
    if a ∈ seen then uniqueFirstAux seen l
    else a :: uniqueFirstAux (a :: seen) l

/-- pandas `Series.unique()`: distinct values in order of first appearance. -/
def uniqueFirst {α : Type} [DecidableEq α] (l : List α) : List α :=
  uniqueFirstAux [] l

/-- Python dict assignment `d[k] = v`: replace in place when the key exists,
append otherwise (insertion order preserved). -/
def dictUpd {α : Type} (d : List (String × α)) (k : String) (v : α) :
    List (String × α) :=
  if (d.find? (fun p => p.1 = k)).isSome then
    d.map (fun p => if p.1 = k then (k, v) else p)
  else d ++ [(k, v)]

/-- Python dict read `d[k]`, as an `Option`. -/
def dictGet? {α : Type} (d : List (String × α)) (k : String) : Option α :=
  (d.find? (fun p => p.1 = k)).map Prod.snd

/-- A Python `for` loop building a list, where the body can raise. -/
def mapE {α β : Type} (f : α → Except Err β) : List α → Except Err (List β)
  | [] => .ok []
  | a :: l =>
    match f a with
    | .error e => .error e
    | .ok b =>
      match mapE f l with
      | .error e => .error e
      | .ok bs => .ok (b :: bs)

/-- A Python `for` loop threading a state, where the body can raise. -/
def foldE {σ α : Type} (f : σ → α → Except Err σ) : σ → List α → Except Err σ
  | s, [] => .ok s
  | s, a :: l =>
    match f s a with
    | .error e => .error e
    | .ok s2 => foldE f s2 l

/-! ## Quality engine (`CNLM.quality_metrics`) -/

/-- `vector_noisy.associations["label"].dropna().unique()`. -/
def noisyLabels (v : SourceVector) : List String :=
  uniqueFirst (v.associations.filterMap (fun a => a.label))

/-- The inner join of the reference associations with a noisy vector's
associations on `record` (`set_index("record").join(..., how="inner")`):
every pair of a reference row and a noisy row for the same record. -/
def innerJoin (ref noisy : List Association) : List (Association × Association) :=
  ref.flatMap (fun a =>
    (noisy.filter (fun b => b.record = a.record)).map (fun b => (a, b)))

/-- The quality counters of one join group (the joined rows carrying one
non-null noisy label): `true_positives` counts the rows whose reference
label equals the noisy label, `false_positives` the remaining rows. -/
def qualityEntryFor (joined : List (Association × Association)) (l : String) :
    QualityEntry :=
  let grp := joined.filter (fun p => p.2.label = some l)
  let tp := (grp.filter (fun p => p.1.label = some l)).length
  ⟨tp, grp.length - tp⟩

/-- One iteration of the per-group loop: `quality[label_name] = {...}`. -/
def qualityStep (joined : List (Association × Association))
    (q : List (String × QualityEntry)) (l : String) :
    List (String × QualityEntry) :=
  dictUpd q l (qualityEntryFor joined l)

/-- The `quality` dict computed for one non-empty noisy vector: zero-counts
for every distinct non-null label the vector emits, then per join group
(grouped by the noisy label; pandas `groupby` drops null keys) the
true/false positive counts.  pandas iterates groups in sorted key order;
the dict is order-insensitive in that order because the loop only
overwrites keys that the zero-initialisation already inserted, so the
embedding iterates keys in order of first appearance. -/
def qualityFor (ref : List Association) (v : SourceVector) :
    List (String × QualityEntry) :=
  let joined := innerJoin ref v.associations
  (uniqueFirst (joined.filterMap (fun p => p.2.label))).foldl
    (qualityStep joined)
    ((noisyLabels v).map (fun l => (l, (⟨0, 0⟩ : QualityEntry))))

/-- The write into one vector during the first loop of `quality_metrics`:
empty vectors are skipped, non-empty ones get a fresh `quality` dict. -/
def qualityUpd (ref : SourceVector) (v : SourceVector) : SourceVector :=
  if v.is_empty then v
  else { v with quality := qualityFor ref.associations v }

/-- The first loop of `quality_metrics`: write a fresh `quality` dict into
every non-empty noisy vector (empty vectors are skipped). -/
def qualityPass (ref : SourceVector) (vs : List SourceVector) :
    List SourceVector :=
  vs.map (qualityUpd ref)

/-- One row of the quality statistics table. -/
structure QualityRow where
  identifier : String
  label_name : String
  true_positives : Nat
  false_positives : Nat
  precision : ℚ
deriving DecidableEq, Repr

/-- `calc_precision`: true positives over all positives, `0.0` when the
denominator is zero. -/
def calc_precision (tp fp : Nat) : ℚ :=
  if tp + fp = 0 then 0 else (tp : ℚ) / ((tp : ℚ) + (fp : ℚ))

/-- The flattened statistics table: one row per vector and per key of its
`quality` dict, with the derived `precision` column (the guard
`len(stats_df) > 0` only matters for the dataframe's set of columns and is
invisible on the empty list of rows). -/
def qualityStats (vs : List SourceVector) : List QualityRow :=
  vs.flatMap (fun v =>
    v.quality.map (fun p =>
      ⟨v.identifier, p.1, p.2.true_positives, p.2.false_positives,
        calc_precision p.2.true_positives p.2.false_positives⟩))

/-- `CNLM.quality_metrics`: raises when no reference vector is set, otherwise
writes per-vector quality dicts and returns the flattened table together
with the updated matrix. -/
def quality_metrics (m : CNLM) : Except Err (List QualityRow × CNLM) :=
  match m.vector_reference with
  | none => .error .missingReference
  | some ref =>
    let vs := qualityPass ref m.vectors_noisy
    .ok (qualityStats vs, { m with vectors_noisy := vs })

/-! ## Quantity engine (`CNLM.quantity_metrics`) -/

/-- `df_concat`: the concatenation of every noisy vector's associations,
each row tagged with its source identifier. -/
def concatRows (vs : List SourceVector) : List (String × Association) :=
  vs.flatMap (fun v => v.associations.map (fun a => (v.identifier, a)))

/-- The rows of `df_concat` belonging to one source, as associations. -/
def srcOf (concat : List (String × Association)) (s : String) :
    List Association :=
  (concat.filter (fun p => p.1 = s)).map Prod.snd

/-- numpy membership `label in labels_unique`: elementwise `==` folded with
`any`; a `NaN` never equals anything, including another `NaN`. -/
def pdIn (x : Option String) (xs : List (Option String)) : Bool :=
  match x with
  | none => false
  | some l => xs.contains (some l)

/-- Python `!=` between two nullable labels: `NaN` compares unequal to
everything, including another `NaN`. -/
def pdNe (a b : Option String) : Bool :=
  match a, b with
  | some x, some y => x ≠ y
  | _, _ => true

/-- The zero-initialised `quantity` dict of one source: one key per distinct
non-null label, whose `record_coverage` counts that source's rows carrying
the label. -/
def quantityInit (src : List Association) : List (String × QuantityEntry) :=
  (uniqueFirst (src.filterMap (fun a => a.label))).map (fun l =>
    (l, (⟨(src.filter (fun a => a.label = some l)).length, 0, 0⟩ : QuantityEntry)))

/-- `quantity[label]["source_overlaps"] += 1`. -/
def incOv (e : QuantityEntry) : QuantityEntry :=
  { e with source_overlaps := e.source_overlaps + 1 }

/-- `quantity[label]["source_conflicts"] += 1`. -/
def incCf (e : QuantityEntry) : QuantityEntry :=
  { e with source_conflicts := e.source_conflicts + 1 }

/-- `quantity[label][...] += 1` for a nullable key: a `KeyError` when the key
is null or not present in the dict. -/
def qIncr (f : QuantityEntry → QuantityEntry)
    (q : List (String × QuantityEntry)) (k : Option String) :
    Except Err (List (String × QuantityEntry)) :=
  match k with
  | none => .error .keyError
  | some l =>
    if (q.find? (fun p => p.1 = l)).isSome then
      .ok (q.map (fun p => if p.1 = l then (l, f p.2) else p))
    else .error .keyError

/-- The first label the source assigned to a record: the `label` field of
`df_source.loc[df_source["record"] == record_id].iloc[0]`. -/
def firstLabelOf (src : List Association) (r : String) : Option (Option String) :=
  (src.find? (fun a => a.record = r)).map (fun a => a.label)

/-- `labels_unique`: the distinct labels (nulls included) the other sources
assigned to one record. -/
def labelsUniqueAt (others : List Association) (r : String) :
    List (Option String) :=
  uniqueFirst ((others.filter (fun a => a.record = r)).map (fun a => a.label))

/-- The body of the per-record loop of `quantity_metrics` for one source:
given that source's rows and the other sources' restricted rows, update the
`quantity` dict at one shared record. -/
def quantityStep (src others : List Association)
    (q : List (String × QuantityEntry)) (r : String) :
    Except Err (List (String × QuantityEntry)) :=
  match src.find? (fun a => a.record = r) with
  | none => .error .keyError
  | some row_source =>
    match (if pdIn row_source.label (labelsUniqueAt others r) then
        qIncr incOv q row_source.label
      else .ok q) with
    | .error e => .error e
    | .ok q2 =>
      if decide (1 < (labelsUniqueAt others r).length)
          || pdNe ((labelsUniqueAt others r).headD none) row_source.label then
        qIncr incCf q2 row_source.label
      else .ok q2

/-- The distinct records of one source's rows
(`df_source.record.unique()`). -/
def srcRecordsOf (src : List Association) : List String :=
  uniqueFirst (src.map (fun a => a.record))

/-- `df_others`: the other sources' rows restricted to the records the
source `s` covers. -/
def othersOf (concat : List (String × Association)) (s : String) :
    List Association :=
  (concat.filter (fun p => p.1 ≠ s ∧ p.2.record ∈ srcRecordsOf (srcOf concat s))).map
    Prod.snd

/-- The `quantity` dict computed for one source: restrict the other sources'
rows to the records this source covers, then run the per-record loop over
the distinct shared records (pandas `groupby` iterates them sorted; the
embedding iterates them in order of first appearance — the counters are
commutative sums and the only possible exception is the same `KeyError`
whatever the order). -/
def quantityFor (concat : List (String × Association)) (s : String) :
    Except Err (List (String × QuantityEntry)) :=
  foldE (quantityStep (srcOf concat s) (othersOf concat s))
    (quantityInit (srcOf concat s))
    (uniqueFirst ((othersOf concat s).map (fun a => a.record)))

/-- One iteration of the per-source loop of `quantity_metrics`: compute the
source's quantity dict and write it into every vector carrying that
identifier. -/
def quantitySourceStep (concat : List (String × Association))
    (vs : List SourceVector) (s : String) : Except Err (List SourceVector) :=
  match quantityFor concat s with
  | .error e => .error e
  | .ok q =>
    .ok (vs.map (fun v =>
      if v.identifier = s then { v with quantity := q } else v))

/-- One row of the quantity statistics table. -/
structure QuantityRow where
  identifier : String
  label_name : String
  record_coverage : Nat
  source_conflicts : Nat
  source_overlaps : Nat
deriving DecidableEq, Repr

/-- The flattened quantity table: one row per vector and per key of its
`quantity` dict. -/
def quantityStats (vs : List SourceVector) : List QuantityRow :=
  vs.flatMap (fun v =>
    v.quantity.map (fun p =>
      ⟨v.identifier, p.1, p.2.record_coverage, p.2.source_conflicts,
        p.2.source_overlaps⟩))

/-- `CNLM.quantity_metrics`: per distinct source identifier, count coverage,
overlaps and conflicts against the peer sources, write the dict into the
matching vectors, and return the flattened table with the updated matrix. -/
def quantity_metrics (m : CNLM) : Except Err (List QuantityRow × CNLM) :=
  match foldE (quantitySourceStep (concatRows m.vectors_noisy)) m.vectors_noisy
      (uniqueFirst ((concatRows m.vectors_noisy).map Prod.fst)) with
  | .error e => .error e
  | .ok vs => .ok (quantityStats vs, { m with vectors_noisy := vs })

/-! ## Ensemble engine (`CNLM.weakly_supervise`) -/

/-- `stats_lkp`: the quality table reindexed by `(identifier, label_name)`
and turned into a dict (`to_dict(orient="index")`), read at one key.  With
duplicate keys the last row wins, as in `to_dict`. -/
def stats_lkp (stats : List QualityRow) (s l : String) : Option ℚ :=
  (stats.reverse.find? (fun row => row.identifier = s ∧ row.label_name = l)).map
    (fun row => row.precision)

/-- The `"prediction"` cell computed for one association row:
`[x["label"], stats_lkp[(identifier, x["label"])]["precision"] * x["confidence"]]`.
A null label, or a `(source, label)` pair absent from the lookup, is a
`KeyError`. -/
def predFor (stats : List QualityRow) (s : String) (a : Association) :
    Except Err (String × ℚ) :=
  match a.label with
  | none => .error .keyError
  | some l =>
    match stats_lkp stats s l with
    | none => .error .keyError
    | some prec => .ok (l, prec * a.confidence)

/-- One iteration of the per-vector loop of `weakly_supervise`: for a vector
with at least one association row, compute and write the `"prediction"`
column (mutating the vector's associations dataframe), then fail like the
pandas column assignment `cnlm_df[identifier] = vector_series` does when the
vector's `record` index has duplicates. -/
def wsVector (stats : List QualityRow) (v : SourceVector) :
    Except Err SourceVector :=
  if 0 < v.associations.length then
    match mapE (predFor stats v.identifier) v.associations with
    | .error e => .error e
    | .ok preds =>
      if (uniqueFirst (v.associations.map (fun a => a.record))).length
          = v.associations.length then
        .ok { v with prediction := some preds }
      else .error .duplicateAxis
  else .ok v

/-- The columns of `cnlm_df` after the per-vector loop: one column per
distinct identifier among the vectors with at least one row; a later vector
with the same identifier overwrites the column (at its first position), as
the repeated `cnlm_df[identifier] = ...` assignment does. -/
def wsColumns (vs : List SourceVector) : List SourceVector :=
  let procs := vs.filter (fun v => 0 < v.associations.length)
  (uniqueFirst (procs.map (fun v => v.identifier))).filterMap (fun s =>
    (procs.filter (fun v => v.identifier = s)).getLast?)

/-- The cell of `cnlm_df` at one record for one column: the vector's
prediction pair for that record, `none` for the `NaN` a record without an
association gets (the column assignment aligns the prediction series on the
record index). -/
def cellAt (v : SourceVector) (r : String) : Option (String × ℚ) :=
  match v.prediction with
  | none => none
  | some preds =>
    ((v.associations.zip preds).find? (fun p => p.1.record = r)).map
      (fun p => p.2)

/-- One row of `cnlm_df`: the cells of every column at one record. -/
def rowCells (cols : List SourceVector) (r : String) :
    List (Option (String × ℚ)) :=
  cols.map (fun v => cellAt v r)

/-- `defaultdict(float)` vote accumulation `voters[label] += confidence`:
add to the entry in place, or append a fresh entry at the end. -/
def dictAdd (d : List (String × ℚ)) (k : String) (w : ℚ) :
    List (String × ℚ) :=
  if (d.find? (fun p => p.1 = k)).isSome then
    d.map (fun p => if p.1 = k then (p.1, p.2 + w) else p)
  else d ++ [(k, w)]

/-- The `voters` dict of one row: every non-`"-"` cell contributes its
weighted vote to its label. -/
def votersOf (cells : List (Option (String × ℚ))) : List (String × ℚ) :=
  cells.foldl
    (fun d c =>
      match c with
      | none => d
      | some lw => dictAdd d lw.1 lw.2)
    []

/-- `max(voters, key=voters.get)`: the first key attaining the maximal value
(`none` on an empty dict, where Python would raise `ValueError`; that case
is unreachable because all-null rows were dropped). -/
def maxVoter (d : List (String × ℚ)) : Option (String × ℚ) :=
  match d with
  | [] => none
  | p :: rest => some (rest.foldl (fun best q => if best.2 < q.2 then q else best) p)

/-- `sum(list(voters.values()))`. -/
def sumVotes (d : List (String × ℚ)) : ℚ :=
  (d.map Prod.snd).sum

/-- The `ensemble` row reduction, up to (but not including) the sigmoid: the
winning label together with the raw margin
`max_vote - (sum_votes - max_vote)` when that margin is positive, `none`
(Python `None`) otherwise. -/
def ensembleDecision (cells : List (Option (String × ℚ))) :
    Option (String × ℚ) :=
  let voters := votersOf cells
  match maxVoter voters with
  | none => none
  | some mv =>
    let margin := mv.2 - (sumVotes voters - mv.2)
    if 0 < margin then some (mv.1, margin) else none

/-- The raw margin of one row (0 on the unreachable empty-voters case). -/
def marginOf (cells : List (Option (String × ℚ))) : ℚ :=
  match maxVoter (votersOf cells) with
  | none => 0
  | some mv => mv.2 - (sumVotes (votersOf cells) - mv.2)

/-- `CNLM.weakly_supervise` up to (but not including) the final sigmoid:
compute the quality table, fail on empty statistics, build the per-vector
prediction columns (mutating each processed vector), drop the records whose
row is all null, and reduce every remaining row to its decision.  The
emitted number is the raw positive margin; `weakly_supervise` applies the
sigmoid to it. -/
def weaklySuperviseCore (m : CNLM) :
    Except Err (List (String × Option (String × ℚ)) × CNLM) :=
  match quality_metrics m with
  | .error e => .error e
  | .ok (stats, m1) =>
    if stats.length = 0 then .error .emptyStatistics
    else
      match mapE (wsVector stats) m1.vectors_noisy with
      | .error e => .error e
      | .ok vs =>
        let cols := wsColumns vs
        let kept :=
          m1.records.filter (fun r => (rowCells cols r).any Option.isSome)
        .ok (kept.map (fun r => (r, ensembleDecision (rowCells cols r))),
          { m1 with vectors_noisy := vs })

/-- `sigmoid(x, c, k) = 1 / (1 + exp(-c * x + k))`; the code calls it with
the defaults `c = 1` (slope) and `k = 1` ("what input should yield 0.5
probability?"). -/
noncomputable def sigmoid (c k x : ℝ) : ℝ :=
  1 / (1 + Real.exp (-c * x + k))

/-- `CNLM.weakly_supervise`: the decision series, with the sigmoid (at its
default slope and midpoint) applied to every emitted margin. -/
noncomputable def weakly_supervise (m : CNLM) :
    Except Err (List (String × Option (String × ℝ)) × CNLM) :=
  match weaklySuperviseCore m with
  | .error e => .error e
  | .ok (out, m2) =>
    .ok (out.map (fun p =>
      (p.1, p.2.map (fun lw => (lw.1, sigmoid 1 1 (lw.2 : ℝ))))), m2)

/-- The decision series of a successful `weaklySuperviseCore` run. -/
def core_output (m : CNLM) :
    Option (List (String × Option (String × ℚ))) :=
  (weaklySuperviseCore m).toOption.map Prod.fst

/-- The series a successful `weakly_supervise` call returns. -/
noncomputable def ws_output (m : CNLM) :
    Option (List (String × Option (String × ℝ))) :=
  (weakly_supervise m).toOption.map Prod.fst

/-! ## Concrete matrices used to exercise the engine -/

/-- A freshly constructed source vector: `is_empty` iff it has zero
associations, derived slots empty, no prediction column. -/
def mkVec (id : String) (assocs : List Association) : SourceVector :=
  ⟨id, assocs, assocs.isEmpty, none, [], []⟩

/-- One record, one perfectly agreeing source: the emitted margin is 1. -/
def M1 : CNLM :=
  ⟨[mkVec "s1" [⟨"r1", some "a", 1⟩]],
   some (mkVec "ref" [⟨"r1", some "a", 1⟩]),
   ["r1"]⟩

/-- Two sources disagreeing on every record, each with precision 1/2: every
record's vote is a tie, margin 0. -/
def M3 : CNLM :=
  ⟨[mkVec "s1" [⟨"r1", some "a", 1⟩, ⟨"r2", some "a", 1⟩],
    mkVec "s2" [⟨"r1", some "b", 1⟩, ⟨"r2", some "b", 1⟩]],
   some (mkVec "ref" [⟨"r1", some "a", 1⟩, ⟨"r2", some "b", 1⟩]),
   ["r1", "r2"]⟩

/-- One source emitting two labels for the same record. -/
def M4 : CNLM :=
  ⟨[mkVec "s1" [⟨"r1", some "a", 1⟩, ⟨"r1", some "b", 1⟩]],
   some (mkVec "ref" [⟨"r1", some "a", 1⟩]),
   ["r1"]⟩

/-- A source with a label (`"b"`) on a record the reference never covers. -/
def M5 : CNLM :=
  ⟨[mkVec "s1" [⟨"r1", some "a", 1⟩, ⟨"r2", some "b", 1⟩]],
   some (mkVec "ref" [⟨"r1", some "a", 1⟩]),
   ["r1", "r2"]⟩

/-- Two sources sharing a record with conflicting labels (all labels
non-null). -/
def M6 : CNLM :=
  ⟨[mkVec "s1" [⟨"r1", some "a", 1⟩],
    mkVec "s2" [⟨"r1", some "b", 1⟩]],
   none,
   ["r1"]⟩

/-- Two sources sharing a record where the first source's association for it
carries a null label. -/
def Mnull : CNLM :=
  ⟨[mkVec "s1" [⟨"r1", none, 1⟩],
    mkVec "s2" [⟨"r1", some "a", 1⟩]],
   none,
   ["r1"]⟩

/-- A matrix with no reference vector. -/
def Mnoref : CNLM :=
  ⟨[mkVec "s1" [⟨"r1", some "a", 1⟩]], none, ["r1"]⟩

/-- The quality table of `M1`. -/
def T1 : List QualityRow := [⟨"s1", "a", 1, 0, 1⟩]

/-- The matrix `M1` after `quality_metrics`. -/
def M1q : CNLM :=
  ⟨[⟨"s1", [⟨"r1", some "a", 1⟩], false, none, [("a", ⟨1, 0⟩)], []⟩],
   some (mkVec "ref" [⟨"r1", some "a", 1⟩]),
   ["r1"]⟩

/-- The decision series of `weaklySuperviseCore` on `M1`. -/
def M1coreOut : List (String × Option (String × ℚ)) := [("r1", some ("a", 1))]

/-- The matrix `M1` after `weakly_supervise` (quality slot and prediction
column written). -/
def M1state : CNLM :=
  ⟨[⟨"s1", [⟨"r1", some "a", 1⟩], false, some [("a", 1)], [("a", ⟨1, 0⟩)], []⟩],
   some (mkVec "ref" [⟨"r1", some "a", 1⟩]),
   ["r1"]⟩

/-- The decision series of `weaklySuperviseCore` on `M3`: both records
present, both abstaining. -/
def M3coreOut : List (String × Option (String × ℚ)) :=
  [("r1", none), ("r2", none)]

/-- The matrix `M3` after `weakly_supervise`. -/
def M3state : CNLM :=
  ⟨[⟨"s1", [⟨"r1", some "a", 1⟩, ⟨"r2", some "a", 1⟩], false,
     some [("a", 1/2), ("a", 1/2)], [("a", ⟨1, 1⟩)], []⟩,
    ⟨"s2", [⟨"r1", some "b", 1⟩, ⟨"r2", some "b", 1⟩], false,
     some [("b", 1/2), ("b", 1/2)], [("b", ⟨1, 1⟩)], []⟩],
   some (mkVec "ref" [⟨"r1", some "a", 1⟩, ⟨"r2", some "b", 1⟩]),
   ["r1", "r2"]⟩

/-- The quality table of `M5`: the label `"b"` never overlaps the reference
and keeps its zero counts. -/
def T5 : List QualityRow :=
  [⟨"s1", "a", 1, 0, 1⟩, ⟨"s1", "b", 0, 0, 0⟩]

/-- The matrix `M5` after `quality_metrics`. -/
def M5q : CNLM :=
  ⟨[⟨"s1", [⟨"r1", some "a", 1⟩, ⟨"r2", some "b", 1⟩], false, none,
     [("a", ⟨1, 0⟩), ("b", ⟨0, 0⟩)], []⟩],
   some (mkVec "ref" [⟨"r1", some "a", 1⟩]),
   ["r1", "r2"]⟩

/-- The quantity table of `M6`. -/
def T6 : List QuantityRow :=
  [⟨"s1", "a", 1, 1, 0⟩, ⟨"s2", "b", 1, 1, 0⟩]

/-- The matrix `M6` after `quantity_metrics`. -/
def M6q : CNLM :=
  ⟨[⟨"s1", [⟨"r1", some "a", 1⟩], false, none, [], [("a", ⟨1, 0, 1⟩)]⟩,
    ⟨"s2", [⟨"r1", some "b", 1⟩], false, none, [], [("b", ⟨1, 0, 1⟩)]⟩],
   none,
   ["r1"]⟩

/-! ## Views used to state frame conditions -/

/-- The associations dataframe of a vector: its rows together with the
optional `"prediction"` column. -/
def assocTable (v : SourceVector) :
    List Association × Option (List (String × ℚ)) :=
  (v.associations, v.prediction)

/-- Everything in a vector except its `quality` slot. -/
def exceptQuality (v : SourceVector) :
    String × List Association × Bool × Option (List (String × ℚ))
      × List (String × QuantityEntry) :=
  (v.identifier, v.associations, v.is_empty, v.prediction, v.quantity)

/-- Everything in a vector except its `quantity` slot. -/
def exceptQuantity (v : SourceVector) :
    String × List Association × Bool × Option (List (String × ℚ))
      × List (String × QualityEntry) :=
  (v.identifier, v.associations, v.is_empty, v.prediction, v.quality)

/-- Everything in a vector except the slots `weakly_supervise` writes
(`quality` and the `prediction` column). -/
def wsFrame (v : SourceVector) :
    String × List Association × Bool × List (String × QuantityEntry) :=
  (v.identifier, v.associations, v.is_empty, v.quantity)

/-- The identifier and association rows of a vector (all that
`quantity_metrics` reads from it). -/
def quantityView (v : SourceVector) : String × List Association :=
  (v.identifier, v.associations)

/-- Source `s` holds an association for record `r` somewhere in the matrix. -/
def covers (m : CNLM) (s r : String) : Prop :=
  ∃ p ∈ concatRows m.vectors_noisy, p.1 = s ∧ p.2.record = r

/-- Some source other than `s` holds an association for record `r`. -/
def coveredByOther (m : CNLM) (s r : String) : Prop :=
  ∃ p ∈ concatRows m.vectors_noisy, p.1 ≠ s ∧ p.2.record = r

/-- The `record` index of a vector's associations has no duplicates (the
condition under which the pandas column assignment in `weakly_supervise`
does not raise). -/
def noDupRecords (v : SourceVector) : Prop :=
  (uniqueFirst (v.associations.map (fun a => a.record))).length
    = v.associations.length

/-! ## Generic lemmas about the helper combinators -/

theorem mem_uniqueFirstAux {α : Type} [DecidableEq α] {a : α} :
    ∀ (l seen : List α), a ∈ uniqueFirstAux seen l ↔ a ∈ l ∧ a ∉ seen := by
  intro l
  induction l with
  | nil => intro seen; simp [uniqueFirstAux]
  | cons b l ih =>
    intro seen
    by_cases hb : b ∈ seen
    · rw [uniqueFirstAux, if_pos hb, ih]
      constructor
      · rintro ⟨h1, h2⟩; exact ⟨List.mem_cons_of_mem _ h1, h2⟩
      · rintro ⟨h1, h2⟩
        rcases List.mem_cons.mp h1 with h | h
        · exact absurd (h ▸ hb) h2
        · exact ⟨h, h2⟩
    · rw [uniqueFirstAux, if_neg hb]
      simp only [List.mem_cons, ih]
      constructor
      · rintro (h | ⟨h1, h2⟩)
        · subst h; exact ⟨Or.inl rfl, hb⟩
        · exact ⟨Or.inr h1, fun hs => h2 (Or.inr hs)⟩
      · rintro ⟨h1 | h1, h2⟩
        · exact Or.inl h1
        · by_cases hab : a = b
          · exact Or.inl hab
          · exact Or.inr ⟨h1, by simp [hab, h2]⟩

theorem mem_uniqueFirst {α : Type} [DecidableEq α] {a : α} (l : List α) :
    a ∈ uniqueFirst l ↔ a ∈ l := by
  rw [uniqueFirst, mem_uniqueFirstAux]; simp

theorem nodup_uniqueFirstAux {α : Type} [DecidableEq α] :
    ∀ (l seen : List α), (uniqueFirstAux seen l).Nodup := by
  intro l
  induction l with
  | nil => intro seen; simp [uniqueFirstAux]
  | cons b l ih =>
    intro seen
    by_cases hb : b ∈ seen
    · rw [uniqueFirstAux, if_pos hb]; exact ih seen
    · rw [uniqueFirstAux, if_neg hb]
      refine List.nodup_cons.mpr ⟨fun hmem => ?_, ih (b :: seen)⟩
      exact ((mem_uniqueFirstAux l (b :: seen)).mp hmem).2 (List.mem_cons_self b seen)

theorem nodup_uniqueFirst {α : Type} [DecidableEq α] (l : List α) :
    (uniqueFirst l).Nodup :=
  nodup_uniqueFirstAux l []

theorem mapE_ok_mem {α β : Type} {f : α → Except Err β} :
    ∀ {l : List α} {l2 : List β}, mapE f l = .ok l2 →
      ∀ b ∈ l2, ∃ a ∈ l, f a = .ok b := by
  intro l
  induction l with
  | nil => intro l2 h b hb; rw [mapE] at h; cases h; simp at hb
  | cons a l ih =>
    intro l2 h b hb
    rw [mapE] at h
    cases hfa : f a with
    | error e => rw [hfa] at h; cases h
    | ok b0 =>
      rw [hfa] at h
      cases hml : mapE f l with
      | error e => rw [hml] at h; cases h
      | ok bs =>
        rw [hml] at h
        cases h
        rcases List.mem_cons.mp hb with hb | hb
        · exact ⟨a, List.mem_cons_self _ _, hb ▸ hfa⟩
        · obtain ⟨a1, ha1, hfa1⟩ := ih hml b hb
          exact ⟨a1, List.mem_cons_of_mem _ ha1, hfa1⟩

theorem mapE_ok_map {α β γ : Type} {f : α → Except Err β} {g : β → γ}
    {h : α → γ} :
    ∀ {l : List α} {l2 : List β}, mapE f l = .ok l2 →
      (∀ a b, f a = .ok b → g b = h a) → l2.map g = l.map h := by
  intro l
  induction l with
  | nil => intro l2 hm _; rw [mapE] at hm; cases hm; rfl
  | cons a l ih =>
    intro l2 hm hgh
    rw [mapE] at hm
    cases hfa : f a with
    | error e => rw [hfa] at hm; cases hm
    | ok b0 =>
      rw [hfa] at hm
      cases hml : mapE f l with
      | error e => rw [hml] at hm; cases hm
      | ok bs =>
        rw [hml] at hm
        cases hm
        simp only [List.map_cons]
        rw [hgh a b0 hfa, ih hml hgh]

theorem length_filter_split {α : Type} (p q : α → Bool) (l : List α) :
    (l.filter p).length
      = (l.filter (fun a => p a && q a)).length
        + (l.filter (fun a => p a && !q a)).length := by
  induction l with
  | nil => rfl
  | cons a l ih =>
    by_cases hp : p a
    · by_cases hq : q a
      · simp [List.filter_cons, hp, hq, ih]; omega
      · simp only [Bool.not_eq_true] at hq
        simp [List.filter_cons, hp, hq, ih]; omega
    · simp only [Bool.not_eq_true] at hp
      simp [List.filter_cons, hp, ih]

theorem nodup_length_le_filter :
    ∀ (rs : List String), rs.Nodup →
      ∀ (p : Association → Bool) (src : List Association),
        (∀ r ∈ rs, ∃ a ∈ src, a.record = r ∧ p a = true) →
        rs.length ≤ (src.filter p).length := by
  intro rs
  induction rs with
  | nil => intro _ p src _; simp
  | cons r rs ih =>
    intro hnd p src hcov
    obtain ⟨a, ha, har, hpa⟩ := hcov r (List.mem_cons_self _ _)
    have hnd2 := List.nodup_cons.mp hnd
    have hrs : rs.length
        ≤ (src.filter (fun b => p b && !(decide (b.record = r)))).length := by
      refine ih hnd2.2 _ src ?_
      intro r2 hr2
      obtain ⟨b, hb, hbr, hpb⟩ := hcov r2 (List.mem_cons_of_mem _ hr2)
      refine ⟨b, hb, hbr, ?_⟩
      have : b.record ≠ r := by
        rw [hbr]; rintro rfl; exact hnd2.1 hr2
      simp [hpb, this]
    have h1 : 1 ≤ (src.filter (fun b => p b && decide (b.record = r))).length := by
      have : a ∈ src.filter (fun b => p b && decide (b.record = r)) := by
        simp [List.mem_filter, ha, hpa, har]
      calc 1 ≤ 1 := le_refl 1
        _ ≤ _ := List.length_pos.mpr (List.ne_nil_of_mem this)
    have hsplit := length_filter_split p (fun b => decide (b.record = r)) src
    simp only [List.length_cons]
    omega

/-! ## Quality engine lemmas -/

theorem dictUpd_mem_ne {α : Type} {l k : String} {e v : α}
    (q : List (String × α)) (hne : k ≠ l) (hm : (l, e) ∈ q) :
    (l, e) ∈ dictUpd q k v := by
  rw [dictUpd]
  by_cases h : (q.find? (fun p => p.1 = k)).isSome
  · rw [if_pos h]
    refine List.mem_map.mpr ⟨(l, e), hm, ?_⟩
    exact if_neg (fun hlk => hne hlk.symm)
  · rw [if_neg h]; exact List.mem_append_left _ hm

theorem mem_foldl_qualityStep {l : String} {e : QualityEntry}
    (joined : List (Association × Association)) :
    ∀ (keys : List String) (q : List (String × QualityEntry)),
      (∀ k ∈ keys, k ≠ l) → (l, e) ∈ q →
      (l, e) ∈ keys.foldl (qualityStep joined) q := by
  intro keys
  induction keys with
  | nil => intro q _ hm; exact hm
  | cons k keys ih =>
    intro q hk hm
    rw [List.foldl_cons]
    exact ih _ (fun k2 h2 => hk k2 (List.mem_cons_of_mem _ h2))
      (dictUpd_mem_ne q (hk k (List.mem_cons_self _ _)) hm)

/-- A label the vector emits that appears in no join row keeps its
zero-initialised quality counters. -/
theorem qualityFor_zero_of_no_join {ref : List Association} {v : SourceVector}
    {l : String} (hl : l ∈ noisyLabels v)
    (hnj : ∀ p ∈ innerJoin ref v.associations, ¬ p.2.label = some l) :
    (l, (⟨0, 0⟩ : QualityEntry)) ∈ qualityFor ref v := by
  rw [qualityFor]
  refine mem_foldl_qualityStep _ _ _ ?_ ?_
  · intro k hk hkl
    subst hkl
    obtain ⟨p, hp, hpl⟩ := List.mem_filterMap.mp ((mem_uniqueFirst _).mp hk)
    exact hnj p hp hpl
  · exact List.mem_map.mpr ⟨l, hl, rfl⟩

/-- Every row of the quality table comes from a vector's quality dict, and
its `precision` column is `calc_precision` of its two counter columns. -/
theorem mem_qualityStats {vs : List SourceVector} {v : SourceVector}
    {l : String} {e : QualityEntry} (hv : v ∈ vs) (he : (l, e) ∈ v.quality) :
    (⟨v.identifier, l, e.true_positives, e.false_positives,
      calc_precision e.true_positives e.false_positives⟩ : QualityRow)
      ∈ qualityStats vs := by
  rw [qualityStats]
  exact List.mem_flatMap.mpr ⟨v, hv, List.mem_map.mpr ⟨(l, e), he, rfl⟩⟩

theorem qualityStats_precision {vs : List SourceVector} {row : QualityRow}
    (hrow : row ∈ qualityStats vs) :
    row.precision = calc_precision row.true_positives row.false_positives := by
  rw [qualityStats] at hrow
  obtain ⟨v, _, hm⟩ := List.mem_flatMap.mp hrow
  obtain ⟨p, _, hp⟩ := List.mem_map.mp hm
  rw [← hp]

/-! ## C9: quality_metrics requires the reference vector -/

/-- C9: `quality_metrics` fails with the missing-reference error exactly when
`vector_reference` is absent (the check happens before anything is computed
or written, so the error carries no updated state); with a reference present
it always returns a table and an updated matrix, never that error. -/
theorem C9_quality_missing_reference (m : CNLM) :
    (m.vector_reference = none →
      quality_metrics m = .error .missingReference)
    ∧ (∀ ref, m.vector_reference = some ref →
        quality_metrics m
          = .ok (qualityStats (qualityPass ref m.vectors_noisy),
              { m with vectors_noisy := qualityPass ref m.vectors_noisy })) := by
  constructor
  · intro h; rw [quality_metrics, h]
  · intro ref h; rw [quality_metrics, h]

/-- Witness for C9 at the concrete matrices `Mnoref` and `M1`. -/
theorem C9_quality_missing_reference_witness :
    quality_metrics Mnoref = .error .missingReference
    ∧ quality_metrics M1
        = .ok (qualityStats (qualityPass (mkVec "ref" [⟨"r1", some "a", 1⟩])
            M1.vectors_noisy),
          { M1 with vectors_noisy :=
              qualityPass (mkVec "ref" [⟨"r1", some "a", 1⟩]) M1.vectors_noisy }) :=
  ⟨(C9_quality_missing_reference Mnoref).1 rfl,
   (C9_quality_missing_reference M1).2 (mkVec "ref" [⟨"r1", some "a", 1⟩]) rfl⟩

/-! ## C8: the precision column -/

/-- C8: in the quality table every row's precision is
`true_positives / (true_positives + false_positives)`, read as `0` when the
denominator is zero; and every label a non-empty source emits that appears
in no join row with the reference yields the row with both counters `0` and
precision `0`. -/
theorem C8_precision_formula (m : CNLM) (ref : SourceVector)
    (t : List QualityRow) (m2 : CNLM)
    (href : m.vector_reference = some ref)
    (hok : quality_metrics m = .ok (t, m2)) :
    (∀ row ∈ t,
      row.precision
        = if row.true_positives + row.false_positives = 0 then 0
          else (row.true_positives : ℚ)
            / ((row.true_positives : ℚ) + (row.false_positives : ℚ)))
    ∧ (∀ v ∈ m.vectors_noisy, v.is_empty = false → ∀ l, l ∈ noisyLabels v →
        (∀ p ∈ innerJoin ref.associations v.associations,
          ¬ p.2.label = some l) →
        (⟨v.identifier, l, 0, 0, 0⟩ : QualityRow) ∈ t) := by
  rw [quality_metrics, href] at hok
  cases hok
  constructor
  · intro row hrow
    rw [qualityStats_precision hrow, calc_precision]
  · intro v hv hemp l hl hnj
    have hq : (l, (⟨0, 0⟩ : QualityEntry))
        ∈ ({ v with quality := qualityFor ref.associations v } : SourceVector).quality :=
      qualityFor_zero_of_no_join hl hnj
    have hv2 : ({ v with quality := qualityFor ref.associations v } : SourceVector)
        ∈ qualityPass ref m.vectors_noisy := by
      rw [qualityPass]
      refine List.mem_map.mpr ⟨v, hv, ?_⟩
      rw [qualityUpd, if_neg (by rw [hemp]; exact Bool.false_ne_true)]
    have := mem_qualityStats hv2 hq
    exact this

/-- Witness for C8 at the concrete matrix `M5`, whose label `"b"` never
overlaps the reference. -/
theorem C8_precision_formula_witness :
    ((⟨"s1", "b", 0, 0, 0⟩ : QualityRow) ∈ T5) :=
  (C8_precision_formula M5 (mkVec "ref" [⟨"r1", some "a", 1⟩]) T5 M5q rfl
      (by with_unfolding_all rfl)).2
    (mkVec "s1" [⟨"r1", some "a", 1⟩, ⟨"r2", some "b", 1⟩])
    (by with_unfolding_all decide) rfl "b" (by with_unfolding_all decide)
    (by with_unfolding_all decide)

/-! ## Frame and idempotence of the quality pass -/

theorem quality_metrics_some (m : CNLM) (ref : SourceVector)
    (h : m.vector_reference = some ref) :
    quality_metrics m
      = .ok (qualityStats (qualityPass ref m.vectors_noisy),
          { m with vectors_noisy := qualityPass ref m.vectors_noisy }) := by
  rw [quality_metrics, h]

theorem qualityFor_eq_of_assoc {ref : List Association} {v w : SourceVector}
    (h : v.associations = w.associations) :
    qualityFor ref v = qualityFor ref w := by
  rw [qualityFor, qualityFor, noisyLabels, noisyLabels, h]

theorem qualityUpd_exceptQuality (ref v : SourceVector) :
    exceptQuality (qualityUpd ref v) = exceptQuality v := by
  rw [qualityUpd]
  by_cases h : v.is_empty
  · rw [if_pos h]
  · rw [if_neg h]; rfl

theorem qualityPass_frame (ref : SourceVector) (vs : List SourceVector) :
    (qualityPass ref vs).map exceptQuality = vs.map exceptQuality := by
  rw [qualityPass, List.map_map]
  exact List.map_congr_left (fun v _ => qualityUpd_exceptQuality ref v)

theorem qualityUpd_idem (ref v : SourceVector) :
    qualityUpd ref (qualityUpd ref v) = qualityUpd ref v := by
  by_cases h : v.is_empty = true
  · have h2 : qualityUpd ref v = v := by rw [qualityUpd, if_pos h]
    rw [h2]
    exact h2
  · have h2 : qualityUpd ref v
        = { v with quality := qualityFor ref.associations v } := by
      rw [qualityUpd, if_neg h]
    rw [h2, qualityUpd, if_neg h]
    have h3 : qualityFor ref.associations
        ({ v with quality := qualityFor ref.associations v } : SourceVector)
        = qualityFor ref.associations v := qualityFor_eq_of_assoc rfl
    rw [h3]

theorem qualityPass_idem (ref : SourceVector) (vs : List SourceVector) :
    qualityPass ref (qualityPass ref vs) = qualityPass ref vs := by
  rw [qualityPass, qualityPass, List.map_map]
  exact List.map_congr_left (fun v _ => qualityUpd_idem ref v)

theorem quality_metrics_frame {m : CNLM} {t : List QualityRow} {m1 : CNLM}
    (hok : quality_metrics m = .ok (t, m1)) :
    m1.vectors_noisy.map exceptQuality = m.vectors_noisy.map exceptQuality
    ∧ m1.vector_reference = m.vector_reference
    ∧ m1.records = m.records := by
  cases href : m.vector_reference with
  | none => rw [quality_metrics, href] at hok; cases hok
  | some ref =>
    rw [quality_metrics_some _ _ href] at hok
    cases hok
    exact ⟨qualityPass_frame ref m.vectors_noisy, href, rfl⟩

theorem quality_metrics_idem {m : CNLM} {t : List QualityRow} {m1 : CNLM}
    (hok : quality_metrics m = .ok (t, m1)) :
    quality_metrics m1 = .ok (t, m1) := by
  cases href : m.vector_reference with
  | none => rw [quality_metrics, href] at hok; cases hok
  | some ref =>
    rw [quality_metrics_some _ _ href] at hok
    cases hok
    have h2 := quality_metrics_some
      { m with vectors_noisy := qualityPass ref m.vectors_noisy } ref href
    rw [h2]
    dsimp only
    rw [qualityPass_idem]

/-! ## Quantity engine lemmas: the counter bounds -/

theorem incOv_fields (e : QuantityEntry) :
    (incOv e).record_coverage = e.record_coverage
    ∧ (incOv e).source_overlaps = e.source_overlaps + 1
    ∧ (incOv e).source_conflicts = e.source_conflicts :=
  ⟨rfl, rfl, rfl⟩

theorem incCf_fields (e : QuantityEntry) :
    (incCf e).record_coverage = e.record_coverage
    ∧ (incCf e).source_overlaps = e.source_overlaps
    ∧ (incCf e).source_conflicts = e.source_conflicts + 1 :=
  ⟨rfl, rfl, rfl⟩

theorem qIncr_ok_mem {f : QuantityEntry → QuantityEntry}
    {q q2 : List (String × QuantityEntry)} {k : Option String}
    (h : qIncr f q k = .ok q2) {l : String} {e2 : QuantityEntry}
    (he2 : (l, e2) ∈ q2) :
    ∃ e, (l, e) ∈ q ∧ (e2 = e ∨ (k = some l ∧ e2 = f e)) := by
  cases k with
  | none => simp only [qIncr] at h; cases h
  | some kl =>
    simp only [qIncr] at h
    by_cases hf : (q.find? (fun p => p.1 = kl)).isSome
    · rw [if_pos hf] at h
      cases h
      obtain ⟨p, hp, hpe⟩ := List.mem_map.mp he2
      by_cases hpk : p.1 = kl
      · rw [if_pos hpk] at hpe
        injection hpe with h1 h2
        subst h1
        refine ⟨p.2, ?_, Or.inr ⟨rfl, h2.symm⟩⟩
        have hpeta : p = (kl, p.2) := by
          rw [← hpk]
        rw [← hpeta]
        exact hp
      · rw [if_neg hpk] at hpe
        exact ⟨e2, hpe ▸ hp, Or.inl rfl⟩
    · rw [if_neg hf] at h
      cases h

theorem quantityStep_ok_mem {src others : List Association}
    {q q2 : List (String × QuantityEntry)} {r : String}
    (h : quantityStep src others q r = .ok q2) {l : String} {e2 : QuantityEntry}
    (he2 : (l, e2) ∈ q2) :
    ∃ e, (l, e) ∈ q
      ∧ e2.record_coverage = e.record_coverage
      ∧ e2.source_overlaps ≤ e.source_overlaps
          + (if firstLabelOf src r = some (some l) then 1 else 0)
      ∧ e2.source_conflicts ≤ e.source_conflicts
          + (if firstLabelOf src r = some (some l) then 1 else 0) := by
  rw [quantityStep] at h
  cases hf : src.find? (fun a => a.record = r) with
  | none => rw [hf] at h; cases h
  | some a =>
    rw [hf] at h
    dsimp only at h
    have hfl : firstLabelOf src r = some a.label := by
      rw [firstLabelOf, hf]; rfl
    cases hov : (if pdIn a.label (labelsUniqueAt others r) then
        qIncr incOv q a.label else .ok q) with
    | error e => rw [hov] at h; cases h
    | ok q1 =>
      rw [hov] at h
      dsimp only at h
      have hq1 : ∀ e1, (l, e1) ∈ q1 →
          ∃ e, (l, e) ∈ q ∧ (e1 = e ∨ (a.label = some l ∧ e1 = incOv e)) := by
        intro e1 he1
        by_cases hc : pdIn a.label (labelsUniqueAt others r)
        · rw [if_pos hc] at hov; exact qIncr_ok_mem hov he1
        · rw [if_neg hc] at hov; cases hov; exact ⟨e1, he1, Or.inl rfl⟩
      have hite : (if firstLabelOf src r = some (some l) then (1 : Nat) else 0)
          = (if a.label = some l then 1 else 0) := by
        rw [hfl]
        by_cases hx : a.label = some l
        · rw [if_pos hx, if_pos (by rw [hx])]
        · rw [if_neg hx, if_neg (fun hxx => hx (by injection hxx))]
      rw [hite]
      by_cases hc2 : (decide (1 < (labelsUniqueAt others r).length)
          || pdNe ((labelsUniqueAt others r).headD none) a.label) = true
      · rw [if_pos hc2] at h
        obtain ⟨e1, he1, hcase1⟩ := qIncr_ok_mem h he2
        obtain ⟨e, he, hcase0⟩ := hq1 e1 he1
        refine ⟨e, he, ?_⟩
        by_cases hal : a.label = some l
        · rw [if_pos hal]
          have h1f : e2.record_coverage = e1.record_coverage
              ∧ e2.source_overlaps = e1.source_overlaps
              ∧ e2.source_conflicts ≤ e1.source_conflicts + 1 := by
            rcases hcase1 with h1 | ⟨hk1, h1⟩
            · rw [h1]; exact ⟨rfl, rfl, Nat.le_add_right _ _⟩
            · rw [h1]; exact ⟨rfl, rfl, le_refl _⟩
          have h0f : e1.record_coverage = e.record_coverage
              ∧ e1.source_overlaps ≤ e.source_overlaps + 1
              ∧ e1.source_conflicts = e.source_conflicts := by
            rcases hcase0 with h0 | ⟨hk0, h0⟩
            · rw [h0]; exact ⟨rfl, Nat.le_add_right _ _, rfl⟩
            · rw [h0]; exact ⟨rfl, le_refl _, rfl⟩
          omega
        · rw [if_neg hal]
          have h1 : e2 = e1 := by
            rcases hcase1 with h1 | ⟨hk1, h1⟩
            · exact h1
            · exact absurd hk1 hal
          have h0 : e1 = e := by
            rcases hcase0 with h0 | ⟨hk0, h0⟩
            · exact h0
            · exact absurd hk0 hal
          rw [h1, h0]
          exact ⟨rfl, Nat.le_add_right _ _, Nat.le_add_right _ _⟩
      · rw [if_neg hc2] at h
        cases h
        obtain ⟨e, he, hcase0⟩ := hq1 e2 he2
        refine ⟨e, he, ?_⟩
        by_cases hal : a.label = some l
        · rw [if_pos hal]
          rcases hcase0 with h0 | ⟨hk0, h0⟩
          · rw [h0]; exact ⟨rfl, Nat.le_add_right _ _, Nat.le_add_right _ _⟩
          · rw [h0]; exact ⟨rfl, le_refl _, Nat.le_add_right _ _⟩
        · rw [if_neg hal]
          have h0 : e2 = e := by
            rcases hcase0 with h0 | ⟨hk0, h0⟩
            · exact h0
            · exact absurd hk0 hal
          rw [h0]
          exact ⟨rfl, Nat.le_add_right _ _, Nat.le_add_right _ _⟩

theorem foldE_quantityStep_mem {src others : List Association} :
    ∀ (rs : List String) (q q2 : List (String × QuantityEntry)),
      foldE (quantityStep src others) q rs = .ok q2 →
      ∀ l e2, (l, e2) ∈ q2 →
        ∃ e, (l, e) ∈ q
          ∧ e2.record_coverage = e.record_coverage
          ∧ e2.source_overlaps ≤ e.source_overlaps
              + (rs.filter (fun r => firstLabelOf src r = some (some l))).length
          ∧ e2.source_conflicts ≤ e.source_conflicts
              + (rs.filter (fun r => firstLabelOf src r = some (some l))).length := by
  intro rs
  induction rs with
  | nil =>
    intro q q2 h l e2 he2
    rw [foldE] at h
    cases h
    exact ⟨e2, he2, rfl, Nat.le_add_right _ _, Nat.le_add_right _ _⟩
  | cons r rs ih =>
    intro q q2 h l e2 he2
    rw [foldE] at h
    cases hstep : quantityStep src others q r with
    | error e => rw [hstep] at h; cases h
    | ok q1 =>
      rw [hstep] at h
      obtain ⟨e1, he1, hc1, ho1, hf1⟩ := ih q1 q2 h l e2 he2
      obtain ⟨e, he, hc0, ho0, hf0⟩ := quantityStep_ok_mem hstep he1
      by_cases hP : firstLabelOf src r = some (some l)
      · rw [if_pos hP] at ho0 hf0
        refine ⟨e, he, by rw [hc1, hc0], ?_, ?_⟩
        · rw [List.filter_cons_of_pos (by simpa using hP), List.length_cons]
          omega
        · rw [List.filter_cons_of_pos (by simpa using hP), List.length_cons]
          omega
      · rw [if_neg hP] at ho0 hf0
        refine ⟨e, he, by rw [hc1, hc0], ?_, ?_⟩
        · rw [List.filter_cons_of_neg (by simpa using hP)]
          omega
        · rw [List.filter_cons_of_neg (by simpa using hP)]
          omega

theorem quantityInit_mem {src : List Association} {l : String}
    {e : QuantityEntry} (he : (l, e) ∈ quantityInit src) :
    e = ⟨(src.filter (fun a => a.label = some l)).length, 0, 0⟩ := by
  rw [quantityInit] at he
  obtain ⟨l0, hl0, heq⟩ := List.mem_map.mp he
  injection heq with h1 h2
  subst h1
  exact h2.symm

theorem filter_first_label_le (src : List Association) {rs : List String}
    (hnd : rs.Nodup) (l : String) :
    (rs.filter (fun r => firstLabelOf src r = some (some l))).length
      ≤ (src.filter (fun a => a.label = some l)).length := by
  refine nodup_length_le_filter _ (hnd.filter _) _ src ?_
  intro r hr
  have hp := (List.mem_filter.mp hr).2
  rw [decide_eq_true_eq, firstLabelOf] at hp
  cases hf : src.find? (fun a => a.record = r) with
  | none => rw [hf] at hp; cases hp
  | some a =>
    rw [hf] at hp
    have hal : a.label = some l := by simpa using hp
    refine ⟨a, List.mem_of_find?_eq_some hf, ?_, by simp [hal]⟩
    have := List.find?_some hf
    simpa using this

theorem quantityFor_bound {concat : List (String × Association)} {s : String}
    {q : List (String × QuantityEntry)} (h : quantityFor concat s = .ok q) :
    ∀ l e, (l, e) ∈ q →
      e.source_overlaps ≤ e.record_coverage
      ∧ e.source_conflicts ≤ e.record_coverage := by
  intro l e2 he2
  rw [quantityFor] at h
  obtain ⟨e, he, hcov, hov, hcf⟩ := foldE_quantityStep_mem _ _ _ h l e2 he2
  have hinit := quantityInit_mem he
  subst hinit
  have hcov2 : e2.record_coverage
      = ((srcOf concat s).filter (fun a => a.label = some l)).length := hcov
  have hov2 : e2.source_overlaps ≤ 0
      + ((uniqueFirst ((othersOf concat s).map (fun a => a.record))).filter
          (fun r => firstLabelOf (srcOf concat s) r = some (some l))).length := hov
  have hcf2 : e2.source_conflicts ≤ 0
      + ((uniqueFirst ((othersOf concat s).map (fun a => a.record))).filter
          (fun r => firstLabelOf (srcOf concat s) r = some (some l))).length := hcf
  have hle := filter_first_label_le (srcOf concat s)
    (nodup_uniqueFirst ((othersOf concat s).map (fun a => a.record))) l
  omega

theorem foldE_sourceStep_pred {concat : List (String × Association)}
    (P : List (String × QuantityEntry) → Prop) :
    ∀ (sources : List String) (vs vs2 : List SourceVector),
      foldE (quantitySourceStep concat) vs sources = .ok vs2 →
      (∀ v ∈ vs, P v.quantity) →
      (∀ s q, quantityFor concat s = .ok q → P q) →
      ∀ v ∈ vs2, P v.quantity := by
  intro sources
  induction sources with
  | nil =>
    intro vs vs2 h hvs _ v hv
    rw [foldE] at h
    cases h
    exact hvs v hv
  | cons s sources ih =>
    intro vs vs2 h hvs hq v hv
    rw [foldE] at h
    cases hstep : quantitySourceStep concat vs s with
    | error e => rw [hstep] at h; cases h
    | ok vs1 =>
      rw [hstep] at h
      refine ih vs1 vs2 h ?_ hq v hv
      intro v1 hv1
      rw [quantitySourceStep] at hstep
      cases hqf : quantityFor concat s with
      | error e => rw [hqf] at hstep; cases hstep
      | ok q0 =>
        rw [hqf] at hstep
        cases hstep
        obtain ⟨v0, hv0, hv0e⟩ := List.mem_map.mp hv1
        by_cases hid : v0.identifier = s
        · rw [if_pos hid] at hv0e
          rw [← hv0e]
          exact hq s q0 hqf
        · rw [if_neg hid] at hv0e
          rw [← hv0e]
          exact hvs v0 hv0

/-! ## C6: overlaps and conflicts never exceed coverage -/

/-- C6: on a freshly constructed matrix (empty derived quantity slots, as in
the data-model lifecycle), after a successful `quantity_metrics` call every
label of every vector's quantity dict — and every row of the returned
table — satisfies `source_overlaps ≤ record_coverage` and
`source_conflicts ≤ record_coverage`. -/
theorem C6_overlap_conflict_le_coverage (m : CNLM) (t : List QuantityRow)
    (m2 : CNLM) (hfresh : ∀ v ∈ m.vectors_noisy, v.quantity = [])
    (hok : quantity_metrics m = .ok (t, m2)) :
    (∀ v ∈ m2.vectors_noisy, ∀ l e, (l, e) ∈ v.quantity →
      e.source_overlaps ≤ e.record_coverage
      ∧ e.source_conflicts ≤ e.record_coverage)
    ∧ (∀ row ∈ t, row.source_overlaps ≤ row.record_coverage
        ∧ row.source_conflicts ≤ row.record_coverage) := by
  rw [quantity_metrics] at hok
  cases hfold : foldE (quantitySourceStep (concatRows m.vectors_noisy))
      m.vectors_noisy
      (uniqueFirst ((concatRows m.vectors_noisy).map Prod.fst)) with
  | error e => rw [hfold] at hok; cases hok
  | ok vs =>
    rw [hfold] at hok
    cases hok
    have hmain : ∀ v ∈ vs, ∀ l e, (l, e) ∈ v.quantity →
        e.source_overlaps ≤ e.record_coverage
        ∧ e.source_conflicts ≤ e.record_coverage := by
      refine foldE_sourceStep_pred
        (fun q => ∀ l e, (l, e) ∈ q →
          e.source_overlaps ≤ e.record_coverage
          ∧ e.source_conflicts ≤ e.record_coverage)
        _ _ _ hfold ?_ ?_
      · intro v hv
        rw [hfresh v hv]
        intro l e he
        cases he
      · intro s q hq l e he
        exact quantityFor_bound hq l e he
    constructor
    · exact hmain
    · intro row hrow
      rw [quantityStats] at hrow
      obtain ⟨v, hv, hm⟩ := List.mem_flatMap.mp hrow
      obtain ⟨p, hp, hpe⟩ := List.mem_map.mp hm
      have hb := hmain v hv p.1 p.2 hp
      rw [← hpe]
      exact ⟨hb.1, hb.2⟩

/-- Witness for C6 at the concrete matrix `M6`. -/
theorem C6_overlap_conflict_le_coverage_witness :
    (∀ v ∈ M6q.vectors_noisy, ∀ l e, (l, e) ∈ v.quantity →
      e.source_overlaps ≤ e.record_coverage
      ∧ e.source_conflicts ≤ e.record_coverage)
    ∧ (∀ row ∈ T6, row.source_overlaps ≤ row.record_coverage
        ∧ row.source_conflicts ≤ row.record_coverage) :=
  C6_overlap_conflict_le_coverage M6 T6 M6q (by decide)
    (by with_unfolding_all rfl)

/-! ## C10 machinery: which exceptions the quantity pass can raise -/

theorem pdNe_none (a : Option String) : pdNe a none = true := by
  cases a <;> rfl

theorem qIncr_error {f : QuantityEntry → QuantityEntry}
    {q : List (String × QuantityEntry)} {k : Option String} {e : Err}
    (h : qIncr f q k = .error e) : e = .keyError := by
  cases k with
  | none =>
    simp only [qIncr] at h
    injection h with h2
    exact h2.symm
  | some kl =>
    simp only [qIncr] at h
    by_cases hf : (q.find? (fun p => p.1 = kl)).isSome
    · rw [if_pos hf] at h; cases h
    · rw [if_neg hf] at h
      injection h with h2
      exact h2.symm

theorem quantityStep_error {src others : List Association}
    {q : List (String × QuantityEntry)} {r : String} {e : Err}
    (h : quantityStep src others q r = .error e) : e = .keyError := by
  rw [quantityStep] at h
  cases hf : src.find? (fun a => a.record = r) with
  | none =>
    rw [hf] at h
    dsimp only at h
    injection h with h2
    exact h2.symm
  | some a =>
    rw [hf] at h
    dsimp only at h
    cases hov : (if pdIn a.label (labelsUniqueAt others r) then
        qIncr incOv q a.label else .ok q) with
    | error e2 =>
      rw [hov] at h
      dsimp only at h
      injection h with h2
      rw [← h2]
      by_cases hc : pdIn a.label (labelsUniqueAt others r)
      · rw [if_pos hc] at hov; exact qIncr_error hov
      · rw [if_neg hc] at hov; cases hov
    | ok q1 =>
      rw [hov] at h
      dsimp only at h
      by_cases hc2 : (decide (1 < (labelsUniqueAt others r).length)
          || pdNe ((labelsUniqueAt others r).headD none) a.label) = true
      · rw [if_pos hc2] at h; exact qIncr_error h
      · rw [if_neg hc2] at h; cases h

theorem foldE_error_class {σ α : Type} {f : σ → α → Except Err σ} {C : Err}
    (hf : ∀ s a e, f s a = .error e → e = C) :
    ∀ (rs : List α) (s : σ) (e : Err), foldE f s rs = .error e → e = C := by
  intro rs
  induction rs with
  | nil => intro s e h; rw [foldE] at h; cases h
  | cons a rs ih =>
    intro s e h
    rw [foldE] at h
    cases hfa : f s a with
    | error e2 =>
      rw [hfa] at h
      injection h with h2
      rw [← h2]
      exact hf s a _ hfa
    | ok s1 =>
      rw [hfa] at h
      exact ih s1 e h

theorem foldE_error_of_always {σ α : Type} {f : σ → α → Except Err σ} {r : α}
    {er : Err} (hr : ∀ s, f s r = .error er) :
    ∀ (rs : List α), r ∈ rs → ∀ s, ∃ e, foldE f s rs = .error e := by
  intro rs
  induction rs with
  | nil => intro h; cases h
  | cons a rs ih =>
    intro hmem s
    rw [foldE]
    cases hfa : f s a with
    | error e => exact ⟨e, rfl⟩
    | ok s1 =>
      rcases List.mem_cons.mp hmem with h | h
      · subst h; rw [hr s] at hfa; cases hfa
      · exact ih h s1

theorem quantityFor_error {concat : List (String × Association)} {s : String}
    {e : Err} (h : quantityFor concat s = .error e) : e = .keyError := by
  rw [quantityFor] at h
  exact foldE_error_class (fun q r e2 h2 => quantityStep_error h2) _ _ _ h

theorem quantitySourceStep_error {concat : List (String × Association)}
    {vs : List SourceVector} {s : String} {e : Err}
    (h : quantitySourceStep concat vs s = .error e) : e = .keyError := by
  rw [quantitySourceStep] at h
  cases hqf : quantityFor concat s with
  | error e2 =>
    rw [hqf] at h
    dsimp only at h
    injection h with h2
    rw [← h2]
    exact quantityFor_error hqf
  | ok q => rw [hqf] at h; dsimp only at h; cases h

/-- When the source's first association for a shared record carries a null
label, the per-record loop body always raises `KeyError` (the conflict
condition is necessarily true — a null label compares unequal even to
another null — and `quantity[label]` misses). -/
theorem quantityStep_error_of_null {src others : List Association}
    {q : List (String × QuantityEntry)} {r : String}
    (h : firstLabelOf src r = some none) :
    quantityStep src others q r = .error .keyError := by
  obtain ⟨a, hf, hal⟩ : ∃ a, src.find? (fun a => a.record = r) = some a
      ∧ a.label = none := by
    rw [firstLabelOf] at h
    cases hf : src.find? (fun a => a.record = r) with
    | none => rw [hf] at h; cases h
    | some a =>
      rw [hf] at h
      exact ⟨a, rfl, by simpa using h⟩
  rw [quantityStep, hf]
  dsimp only
  rw [hal]
  rw [if_neg (by simp [pdIn])]
  dsimp only
  rw [if_pos (by rw [pdNe_none, Bool.or_true])]
  rfl

theorem mem_srcRecords {concat : List (String × Association)} {s r : String}
    (h : ∃ p ∈ concat, p.1 = s ∧ p.2.record = r) :
    r ∈ srcRecordsOf (srcOf concat s) := by
  obtain ⟨p, hp, hps, hpr⟩ := h
  rw [srcRecordsOf, mem_uniqueFirst]
  refine List.mem_map.mpr ⟨p.2, ?_, hpr⟩
  rw [srcOf]
  exact List.mem_map.mpr ⟨p, List.mem_filter.mpr ⟨hp, by simp [hps]⟩, rfl⟩

theorem mem_othersRecords {concat : List (String × Association)} {s r : String}
    (hcov : ∃ p ∈ concat, p.1 = s ∧ p.2.record = r)
    (hoth : ∃ p ∈ concat, p.1 ≠ s ∧ p.2.record = r) :
    r ∈ uniqueFirst ((othersOf concat s).map (fun a => a.record)) := by
  obtain ⟨p, hp, hps, hpr⟩ := hoth
  rw [mem_uniqueFirst]
  refine List.mem_map.mpr ⟨p.2, ?_, hpr⟩
  rw [othersOf]
  refine List.mem_map.mpr ⟨p, List.mem_filter.mpr ⟨hp, ?_⟩, rfl⟩
  have hr := mem_srcRecords hcov
  simp only [decide_eq_true_eq]
  exact ⟨hps, by rw [hpr]; exact hr⟩

theorem mem_sources {concat : List (String × Association)} {s r : String}
    (hcov : ∃ p ∈ concat, p.1 = s ∧ p.2.record = r) :
    s ∈ uniqueFirst (concat.map Prod.fst) := by
  obtain ⟨p, hp, hps, _⟩ := hcov
  rw [mem_uniqueFirst]
  exact List.mem_map.mpr ⟨p, hp, hps⟩

theorem quantityFor_error_of_null {concat : List (String × Association)}
    {s r : String}
    (hcov : ∃ p ∈ concat, p.1 = s ∧ p.2.record = r)
    (hoth : ∃ p ∈ concat, p.1 ≠ s ∧ p.2.record = r)
    (hnull : firstLabelOf (srcOf concat s) r = some none) :
    quantityFor concat s = .error .keyError := by
  obtain ⟨e, he⟩ := foldE_error_of_always
    (fun q => quantityStep_error_of_null hnull) _
    (mem_othersRecords hcov hoth) (quantityInit (srcOf concat s))
  have heC : e = .keyError :=
    foldE_error_class (fun q r2 e2 h2 => quantityStep_error h2) _ _ _ he
  rw [quantityFor, he, heC]

theorem find?_key_map_upd {q : List (String × QuantityEntry)}
    {g : String × QuantityEntry → String × QuantityEntry}
    (hg : ∀ p, (g p).1 = p.1) (l : String) :
    ((q.map g).find? (fun p => p.1 = l)).isSome
      = (q.find? (fun p => p.1 = l)).isSome := by
  induction q with
  | nil => rfl
  | cons p q ih =>
    rw [List.map_cons]
    by_cases hp : p.1 = l
    · have hgp : (g p).1 = l := by rw [hg p]; exact hp
      rw [List.find?_cons_of_pos _ (by simpa using hgp),
        List.find?_cons_of_pos _ (by simpa using hp)]
      rfl
    · have hgp : ¬ (g p).1 = l := by rw [hg p]; exact hp
      rw [List.find?_cons_of_neg _ (by simpa using hgp),
        List.find?_cons_of_neg _ (by simpa using hp)]
      exact ih

theorem qIncr_ok_of_key {f : QuantityEntry → QuantityEntry}
    {q : List (String × QuantityEntry)} {l0 : String}
    (hkey : (q.find? (fun p => p.1 = l0)).isSome = true) :
    ∃ q2, qIncr f q (some l0) = .ok q2
      ∧ ∀ l, (q2.find? (fun p => p.1 = l)).isSome
          = (q.find? (fun p => p.1 = l)).isSome := by
  refine ⟨q.map (fun p => if p.1 = l0 then (l0, f p.2) else p), ?_, ?_⟩
  · simp only [qIncr]
    rw [if_pos hkey]
  · intro l
    refine find?_key_map_upd ?_ l
    intro p
    by_cases hp : p.1 = l0
    · rw [if_pos hp, hp]
    · rw [if_neg hp]

theorem quantityInit_keys {src : List Association} {l : String}
    (h : ∃ a ∈ src, a.label = some l) :
    ((quantityInit src).find? (fun p => p.1 = l)).isSome = true := by
  obtain ⟨a, ha, hal⟩ := h
  rw [quantityInit]
  have : ∃ x, x ∈ (uniqueFirst (src.filterMap (fun a => a.label))).map
      (fun l => (l, (⟨(src.filter (fun a => a.label = some l)).length, 0, 0⟩
        : QuantityEntry)))
      ∧ (fun p : String × QuantityEntry => decide (p.1 = l)) x = true := by
    refine ⟨_, List.mem_map.mpr ⟨l, ?_, rfl⟩, by simp⟩
    rw [mem_uniqueFirst]
    exact List.mem_filterMap.mpr ⟨a, ha, hal⟩
  simpa using List.find?_isSome.mpr this

/-- When the record is one the source covers and its first association's
label is non-null, the per-record loop body succeeds and leaves the dict's
key set unchanged. -/
theorem quantityStep_ok_of {src others : List Association}
    {q : List (String × QuantityEntry)} {r : String}
    (hr : r ∈ srcRecordsOf src)
    (hnn : ¬ firstLabelOf src r = some none)
    (hkeys : ∀ l, (∃ a ∈ src, a.label = some l) →
      (q.find? (fun p => p.1 = l)).isSome = true) :
    ∃ q2, quantityStep src others q r = .ok q2
      ∧ ∀ l, (q2.find? (fun p => p.1 = l)).isSome
          = (q.find? (fun p => p.1 = l)).isSome := by
  have hfs : ∃ a, src.find? (fun a => a.record = r) = some a := by
    rw [srcRecordsOf, mem_uniqueFirst] at hr
    obtain ⟨a, ha, har⟩ := List.mem_map.mp hr
    have : ∃ x, x ∈ src ∧ (fun a => decide (a.record = r)) x = true :=
      ⟨a, ha, by simp [har]⟩
    have h2 : (src.find? (fun a => a.record = r)).isSome = true :=
      List.find?_isSome.mpr this
    obtain ⟨a2, ha2⟩ := Option.isSome_iff_exists.mp h2
    exact ⟨a2, ha2⟩
  obtain ⟨a, hf⟩ := hfs
  have hfl : firstLabelOf src r = some a.label := by
    rw [firstLabelOf, hf]; rfl
  obtain ⟨l0, hal⟩ : ∃ l0, a.label = some l0 := by
    cases hl : a.label with
    | none => exact absurd (by rw [hfl, hl]) hnn
    | some l0 => exact ⟨l0, rfl⟩
  have hmem : a ∈ src := List.mem_of_find?_eq_some hf
  have hkey0 : (q.find? (fun p => p.1 = l0)).isSome = true :=
    hkeys l0 ⟨a, hmem, hal⟩
  rw [quantityStep, hf]
  dsimp only
  rw [hal]
  by_cases hc1 : pdIn (some l0) (labelsUniqueAt others r)
  · obtain ⟨q1, hq1, hq1keys⟩ := qIncr_ok_of_key (f := incOv) hkey0
    rw [if_pos hc1, hq1]
    dsimp only
    by_cases hc2 : (decide (1 < (labelsUniqueAt others r).length)
        || pdNe ((labelsUniqueAt others r).headD none) (some l0)) = true
    · rw [if_pos hc2]
      obtain ⟨q2, hq2, hq2keys⟩ := qIncr_ok_of_key (f := incCf)
        (by rw [hq1keys]; exact hkey0)
      refine ⟨q2, hq2, ?_⟩
      intro l
      rw [hq2keys, hq1keys]
    · rw [if_neg hc2]
      exact ⟨q1, rfl, hq1keys⟩
  · rw [if_neg hc1]
    dsimp only
    by_cases hc2 : (decide (1 < (labelsUniqueAt others r).length)
        || pdNe ((labelsUniqueAt others r).headD none) (some l0)) = true
    · rw [if_pos hc2]
      obtain ⟨q2, hq2, hq2keys⟩ := qIncr_ok_of_key (f := incCf) hkey0
      exact ⟨q2, hq2, hq2keys⟩
    · rw [if_neg hc2]
      exact ⟨q, rfl, fun l => rfl⟩

theorem foldE_quantityStep_ok {src others : List Association} :
    ∀ (rs : List String) (q : List (String × QuantityEntry)),
      (∀ r ∈ rs, r ∈ srcRecordsOf src ∧ ¬ firstLabelOf src r = some none) →
      (∀ l, (∃ a ∈ src, a.label = some l) →
        (q.find? (fun p => p.1 = l)).isSome = true) →
      ∃ q2, foldE (quantityStep src others) q rs = .ok q2 := by
  intro rs
  induction rs with
  | nil => intro q _ _; exact ⟨q, rfl⟩
  | cons r rs ih =>
    intro q hrs hkeys
    obtain ⟨hr, hnn⟩ := hrs r (List.mem_cons_self _ _)
    obtain ⟨q1, hq1, hq1keys⟩ := quantityStep_ok_of hr hnn hkeys
    obtain ⟨q2, hq2⟩ := ih q1 (fun r2 h2 => hrs r2 (List.mem_cons_of_mem _ h2))
      (fun l hl => by rw [hq1keys]; exact hkeys l hl)
    refine ⟨q2, ?_⟩
    rw [foldE, hq1]
    exact hq2

theorem srcRecords_unpack {concat : List (String × Association)} {s r : String}
    (h : r ∈ srcRecordsOf (srcOf concat s)) :
    ∃ p ∈ concat, p.1 = s ∧ p.2.record = r := by
  rw [srcRecordsOf, mem_uniqueFirst] at h
  obtain ⟨a, ha, har⟩ := List.mem_map.mp h
  rw [srcOf] at ha
  obtain ⟨p, hpf, hpa⟩ := List.mem_map.mp ha
  have hp := List.mem_filter.mp hpf
  exact ⟨p, hp.1, by simpa using hp.2, by rw [hpa, har]⟩

theorem othersRecords_unpack {concat : List (String × Association)}
    {s r : String}
    (h : r ∈ uniqueFirst ((othersOf concat s).map (fun a => a.record))) :
    r ∈ srcRecordsOf (srcOf concat s)
    ∧ ∃ p ∈ concat, p.1 ≠ s ∧ p.2.record = r := by
  rw [mem_uniqueFirst] at h
  obtain ⟨a, ha, har⟩ := List.mem_map.mp h
  rw [othersOf] at ha
  obtain ⟨p, hpf, hpa⟩ := List.mem_map.mp ha
  have hp := List.mem_filter.mp hpf
  have hp2 := hp.2
  simp only [decide_eq_true_eq] at hp2
  constructor
  · rw [← har, ← hpa]
    exact hp2.2
  · exact ⟨p, hp.1, hp2.1, by rw [hpa, har]⟩

theorem foldE_sourceStep_ok {concat : List (String × Association)} :
    ∀ (sources : List String) (vs : List SourceVector),
      (∀ s ∈ sources, ∃ q, quantityFor concat s = .ok q) →
      ∃ vs2, foldE (quantitySourceStep concat) vs sources = .ok vs2 := by
  intro sources
  induction sources with
  | nil => intro vs _; exact ⟨vs, rfl⟩
  | cons s sources ih =>
    intro vs hok
    obtain ⟨q, hq⟩ := hok s (List.mem_cons_self _ _)
    obtain ⟨vs2, hvs2⟩ := ih
      (vs.map (fun v => if v.identifier = s then { v with quantity := q } else v))
      (fun s2 h2 => hok s2 (List.mem_cons_of_mem _ h2))
    refine ⟨vs2, ?_⟩
    rw [foldE]
    rw [show quantitySourceStep concat vs s
        = .ok (vs.map (fun v =>
            if v.identifier = s then { v with quantity := q } else v)) by
      rw [quantitySourceStep, hq]]
    exact hvs2

theorem quantityFor_ok {concat : List (String × Association)} {s : String}
    (h : ∀ r ∈ uniqueFirst ((othersOf concat s).map (fun a => a.record)),
      r ∈ srcRecordsOf (srcOf concat s)
      ∧ ¬ firstLabelOf (srcOf concat s) r = some none) :
    ∃ q, quantityFor concat s = .ok q := by
  rw [quantityFor]
  exact foldE_quantityStep_ok _ _ h (fun l hl => quantityInit_keys hl)

/-! ## C10: null first labels on shared records -/

/-- C10: whenever some noisy source covers a record that another source also
covers and the first association that source holds for the record carries a
null label, `quantity_metrics` raises the lookup `KeyError` (null labels are
dropped from the quantity dict's keys but not from the per-record label
resolution); when every such first label is non-null the per-record lookup
never fails and the whole computation succeeds. -/
theorem C10_null_first_label (m : CNLM) :
    (∀ s r, covers m s r → coveredByOther m s r →
      firstLabelOf (srcOf (concatRows m.vectors_noisy) s) r = some none →
      quantity_metrics m = .error .keyError)
    ∧ ((∀ s r, covers m s r → coveredByOther m s r →
        ¬ firstLabelOf (srcOf (concatRows m.vectors_noisy) s) r = some none) →
      ∃ t m2, quantity_metrics m = .ok (t, m2)) := by
  constructor
  · intro s r hcov hoth hnull
    have hqferr : quantityFor (concatRows m.vectors_noisy) s = .error .keyError :=
      quantityFor_error_of_null hcov hoth hnull
    have hsstep : ∀ vs, quantitySourceStep (concatRows m.vectors_noisy) vs s
        = .error .keyError := by
      intro vs
      rw [quantitySourceStep, hqferr]
    obtain ⟨e, he⟩ := foldE_error_of_always hsstep _ (mem_sources hcov)
      m.vectors_noisy
    have heC : e = .keyError :=
      foldE_error_class (fun vs s2 e2 h2 => quantitySourceStep_error h2)
        _ _ _ he
    rw [heC] at he
    rw [quantity_metrics, he]
  · intro hnn
    have hok : ∀ s ∈ uniqueFirst ((concatRows m.vectors_noisy).map Prod.fst),
        ∃ q, quantityFor (concatRows m.vectors_noisy) s = .ok q := by
      intro s _
      refine quantityFor_ok ?_
      intro r hr
      obtain ⟨hsrc, hoth⟩ := othersRecords_unpack hr
      exact ⟨hsrc, hnn s r (srcRecords_unpack hsrc) hoth⟩
    obtain ⟨vs2, hvs2⟩ := foldE_sourceStep_ok _ m.vectors_noisy hok
    refine ⟨quantityStats vs2, { m with vectors_noisy := vs2 }, ?_⟩
    rw [quantity_metrics, hvs2]

/-- Witness for C10 at the concrete matrix `Mnull`, whose source `"s1"`
holds a null-labelled association for the shared record `"r1"`. -/
theorem C10_null_first_label_witness :
    quantity_metrics Mnull = .error .keyError :=
  (C10_null_first_label Mnull).1 "s1" "r1"
    ⟨("s1", ⟨"r1", none, 1⟩), by with_unfolding_all decide⟩
    ⟨("s2", ⟨"r1", some "a", 1⟩), by with_unfolding_all decide⟩
    (by with_unfolding_all rfl)

/-! ## Frame and idempotence of the quantity pass -/

theorem map_id_of_eq {α : Type} {f : α → α} {l : List α}
    (h : ∀ a ∈ l, f a = a) : l.map f = l := by
  have := List.map_congr_left h
  simpa using this

theorem quantitySourceStep_frame {concat : List (String × Association)}
    {vs vs2 : List SourceVector} {s : String}
    (h : quantitySourceStep concat vs s = .ok vs2) :
    vs2.map exceptQuantity = vs.map exceptQuantity := by
  rw [quantitySourceStep] at h
  cases hqf : quantityFor concat s with
  | error e => rw [hqf] at h; cases h
  | ok q =>
    rw [hqf] at h
    cases h
    rw [List.map_map]
    refine List.map_congr_left ?_
    intro v _
    show exceptQuantity (if v.identifier = s then { v with quantity := q } else v)
      = exceptQuantity v
    by_cases hid : v.identifier = s
    · rw [if_pos hid]
      rfl
    · rw [if_neg hid]

theorem foldE_sourceStep_frame {concat : List (String × Association)} :
    ∀ (sources : List String) (vs vs2 : List SourceVector),
      foldE (quantitySourceStep concat) vs sources = .ok vs2 →
      vs2.map exceptQuantity = vs.map exceptQuantity := by
  intro sources
  induction sources with
  | nil => intro vs vs2 h; rw [foldE] at h; cases h; rfl
  | cons s sources ih =>
    intro vs vs2 h
    rw [foldE] at h
    cases hstep : quantitySourceStep concat vs s with
    | error e => rw [hstep] at h; cases h
    | ok vs1 =>
      rw [hstep] at h
      rw [ih vs1 vs2 h, quantitySourceStep_frame hstep]

theorem quantity_metrics_frame {m : CNLM} {t : List QuantityRow} {m2 : CNLM}
    (hok : quantity_metrics m = .ok (t, m2)) :
    m2.vectors_noisy.map exceptQuantity = m.vectors_noisy.map exceptQuantity
    ∧ m2.vector_reference = m.vector_reference
    ∧ m2.records = m.records := by
  rw [quantity_metrics] at hok
  cases hfold : foldE (quantitySourceStep (concatRows m.vectors_noisy))
      m.vectors_noisy
      (uniqueFirst ((concatRows m.vectors_noisy).map Prod.fst)) with
  | error e => rw [hfold] at hok; cases hok
  | ok vs =>
    rw [hfold] at hok
    cases hok
    exact ⟨foldE_sourceStep_frame _ _ _ hfold, rfl, rfl⟩

theorem view_of_exceptQuantity {vs2 vs : List SourceVector}
    (h : vs2.map exceptQuantity = vs.map exceptQuantity) :
    vs2.map quantityView = vs.map quantityView := by
  have h2 := congrArg
    (List.map (fun t : String × List Association × Bool
        × Option (List (String × ℚ)) × List (String × QualityEntry) =>
      (t.1, t.2.1))) h
  rw [List.map_map, List.map_map] at h2
  exact h2

theorem concatRows_congr : ∀ {vs2 vs : List SourceVector},
    vs2.map quantityView = vs.map quantityView →
    concatRows vs2 = concatRows vs := by
  intro vs2
  induction vs2 with
  | nil =>
    intro vs h
    cases vs with
    | nil => rfl
    | cons v t => simp at h
  | cons v2 t2 ih =>
    intro vs h
    cases vs with
    | nil => simp at h
    | cons v t =>
      simp only [List.map_cons, List.cons.injEq] at h
      obtain ⟨h1, h2⟩ := h
      have hid : v2.identifier = v.identifier := congrArg Prod.fst h1
      have has : v2.associations = v.associations := congrArg Prod.snd h1
      simp only [concatRows, List.flatMap_cons]
      rw [hid, has]
      have ht := ih h2
      simp only [concatRows] at ht
      rw [ht]

theorem foldE_sourceStep_keeps {concat : List (String × Association)}
    {s : String} {q : List (String × QuantityEntry)} :
    ∀ (rest : List String) (vs vs2 : List SourceVector), s ∉ rest →
      foldE (quantitySourceStep concat) vs rest = .ok vs2 →
      (∀ v ∈ vs, v.identifier = s → v.quantity = q) →
      ∀ v ∈ vs2, v.identifier = s → v.quantity = q := by
  intro rest
  induction rest with
  | nil =>
    intro vs vs2 _ h hvs
    rw [foldE] at h
    cases h
    exact hvs
  | cons s0 rest ih =>
    intro vs vs2 hs h hvs
    rw [foldE] at h
    cases hstep : quantitySourceStep concat vs s0 with
    | error e => rw [hstep] at h; cases h
    | ok vs1 =>
      rw [hstep] at h
      have hs0 : s ≠ s0 := fun he => hs (he ▸ List.mem_cons_self _ _)
      refine ih vs1 vs2 (fun hm => hs (List.mem_cons_of_mem _ hm)) h ?_
      intro v1 hv1 hid1
      rw [quantitySourceStep] at hstep
      cases hqf : quantityFor concat s0 with
      | error e => rw [hqf] at hstep; cases hstep
      | ok q0 =>
        rw [hqf] at hstep
        cases hstep
        obtain ⟨v0, hv0, hv0e⟩ := List.mem_map.mp hv1
        by_cases hid0 : v0.identifier = s0
        · rw [if_pos hid0] at hv0e
          rw [← hv0e] at hid1
          exact absurd (hid0.symm.trans hid1) hs0.symm
        · rw [if_neg hid0] at hv0e
          rw [← hv0e] at hid1 ⊢
          exact hvs v0 hv0 hid1

theorem foldE_sourceStep_fix {concat : List (String × Association)} :
    ∀ (sources : List String), sources.Nodup →
      ∀ (vs vs2 : List SourceVector),
        foldE (quantitySourceStep concat) vs sources = .ok vs2 →
        foldE (quantitySourceStep concat) vs2 sources = .ok vs2 := by
  intro sources
  induction sources with
  | nil =>
    intro _ vs vs2 h
    rw [foldE] at h
    cases h
    rfl
  | cons s rest ih =>
    intro hnd vs vs2 h
    rw [foldE] at h
    cases hstep : quantitySourceStep concat vs s with
    | error e => rw [hstep] at h; cases h
    | ok vs1 =>
      rw [hstep] at h
      rw [quantitySourceStep] at hstep
      cases hqf : quantityFor concat s with
      | error e => rw [hqf] at hstep; cases hstep
      | ok q0 =>
        rw [hqf] at hstep
        cases hstep
        have hnd2 := List.nodup_cons.mp hnd
        have hkeep : ∀ v ∈ vs2, v.identifier = s → v.quantity = q0 := by
          refine foldE_sourceStep_keeps rest _ vs2 hnd2.1 h ?_
          intro v hv hid
          obtain ⟨v0, hv0, hv0e⟩ := List.mem_map.mp hv
          by_cases hid0 : v0.identifier = s
          · rw [if_pos hid0] at hv0e
            rw [← hv0e]
          · rw [if_neg hid0] at hv0e
            rw [← hv0e] at hid
            exact absurd hid hid0
        have hmapid : vs2.map (fun v =>
            if v.identifier = s then { v with quantity := q0 } else v) = vs2 := by
          refine map_id_of_eq ?_
          intro v hv
          by_cases hid : v.identifier = s
          · rw [if_pos hid, ← hkeep v hv hid]
          · rw [if_neg hid]
        rw [foldE, show quantitySourceStep concat vs2 s = .ok vs2 by
          rw [quantitySourceStep, hqf]
          dsimp only
          rw [hmapid]]
        exact ih hnd2.2 _ _ h

theorem quantity_metrics_idem {m : CNLM} {t : List QuantityRow} {m2 : CNLM}
    (hok : quantity_metrics m = .ok (t, m2)) :
    quantity_metrics m2 = .ok (t, m2) := by
  rw [quantity_metrics] at hok
  cases hfold : foldE (quantitySourceStep (concatRows m.vectors_noisy))
      m.vectors_noisy
      (uniqueFirst ((concatRows m.vectors_noisy).map Prod.fst)) with
  | error e => rw [hfold] at hok; cases hok
  | ok vs =>
    rw [hfold] at hok
    cases hok
    have hconcat : concatRows vs = concatRows m.vectors_noisy :=
      concatRows_congr (view_of_exceptQuantity (foldE_sourceStep_frame _ _ _ hfold))
    have hfix := foldE_sourceStep_fix _ (nodup_uniqueFirst _) _ _ hfold
    rw [quantity_metrics]
    dsimp only
    rw [hconcat, hfix]

/-! ## C7: recomputation is idempotent -/

/-- C7: a second `quality_metrics` call on the matrix produced by a first
successful call (whose vectors' associations are unchanged) returns the
same table and the same matrix, and likewise for `quantity_metrics` (the
derived slots are overwritten with the values they already hold, never
merged). -/
theorem C7_idempotent_recompute :
    (∀ m t m1, quality_metrics m = .ok (t, m1) →
      quality_metrics m1 = .ok (t, m1))
    ∧ (∀ m t m1, quantity_metrics m = .ok (t, m1) →
      quantity_metrics m1 = .ok (t, m1)) :=
  ⟨fun _ _ _ h => quality_metrics_idem h,
   fun _ _ _ h => quantity_metrics_idem h⟩

/-- Witness for C7 at the concrete matrices `M1` (quality) and `M6`
(quantity). -/
theorem C7_idempotent_recompute_witness :
    quality_metrics M1q = .ok (T1, M1q)
    ∧ quantity_metrics M6q = .ok (T6, M6q) :=
  ⟨C7_idempotent_recompute.1 M1 T1 M1q (by with_unfolding_all rfl),
   C7_idempotent_recompute.2 M6 T6 M6q (by with_unfolding_all rfl)⟩

/-! ## Ensemble engine lemmas -/

theorem core_ok_destruct {m : CNLM}
    {out : List (String × Option (String × ℚ))} {st : CNLM}
    (h : weaklySuperviseCore m = .ok (out, st)) :
    ∃ stats m1 vs, quality_metrics m = .ok (stats, m1)
      ∧ ¬ stats.length = 0
      ∧ mapE (wsVector stats) m1.vectors_noisy = .ok vs
      ∧ st = { m1 with vectors_noisy := vs }
      ∧ out = (m1.records.filter
          (fun r => (rowCells (wsColumns vs) r).any Option.isSome)).map
          (fun r => (r, ensembleDecision (rowCells (wsColumns vs) r))) := by
  rw [weaklySuperviseCore] at h
  cases hq : quality_metrics m with
  | error e => rw [hq] at h; cases h
  | ok p =>
    obtain ⟨stats, m1⟩ := p
    rw [hq] at h
    dsimp only at h
    by_cases hlen : stats.length = 0
    · rw [if_pos hlen] at h; cases h
    · rw [if_neg hlen] at h
      cases hmap : mapE (wsVector stats) m1.vectors_noisy with
      | error e => rw [hmap] at h; cases h
      | ok vs =>
        rw [hmap] at h
        dsimp only at h
        injection h with h2
        injection h2 with h3 h4
        exact ⟨stats, m1, vs, rfl, hlen, hmap, h4.symm, h3.symm⟩

theorem wsVector_ok_wsFrame {stats : List QualityRow} {v v2 : SourceVector}
    (h : wsVector stats v = .ok v2) : wsFrame v2 = wsFrame v := by
  rw [wsVector] at h
  by_cases hlen : 0 < v.associations.length
  · rw [if_pos hlen] at h
    cases hmap : mapE (predFor stats v.identifier) v.associations with
    | error e => rw [hmap] at h; cases h
    | ok preds =>
      rw [hmap] at h
      dsimp only at h
      by_cases hdup : (uniqueFirst (v.associations.map (fun a => a.record))).length
          = v.associations.length
      · rw [if_pos hdup] at h
        cases h
        rfl
      · rw [if_neg hdup] at h; cases h
  · rw [if_neg hlen] at h
    cases h
    rfl

theorem wsVector_ok_nodup {stats : List QualityRow} {v v2 : SourceVector}
    (h : wsVector stats v = .ok v2) : noDupRecords v2 := by
  rw [wsVector] at h
  by_cases hlen : 0 < v.associations.length
  · rw [if_pos hlen] at h
    cases hmap : mapE (predFor stats v.identifier) v.associations with
    | error e => rw [hmap] at h; cases h
    | ok preds =>
      rw [hmap] at h
      dsimp only at h
      by_cases hdup : (uniqueFirst (v.associations.map (fun a => a.record))).length
          = v.associations.length
      · rw [if_pos hdup] at h
        cases h
        exact hdup
      · rw [if_neg hdup] at h; cases h
  · rw [if_neg hlen] at h
    cases h
    have hnil : v.associations = [] :=
      List.length_eq_zero.mp (Nat.eq_zero_of_not_pos hlen)
    rw [noDupRecords, hnil]
    rfl

theorem dictAdd_ne_nil {d : List (String × ℚ)} {k : String} {w : ℚ} :
    dictAdd d k w ≠ [] := by
  rw [dictAdd]
  by_cases hf : (d.find? (fun p => p.1 = k)).isSome
  · rw [if_pos hf]
    intro hmap
    have : d = [] := by
      cases d with
      | nil => rfl
      | cons p t => simp at hmap
    rw [this] at hf
    simp [List.find?] at hf
  · rw [if_neg hf]
    simp

theorem votersOf_ne_nil :
    ∀ (cells : List (Option (String × ℚ))) (d : List (String × ℚ)),
      (d ≠ [] ∨ cells.any Option.isSome = true) →
      cells.foldl
        (fun d c =>
          match c with
          | none => d
          | some lw => dictAdd d lw.1 lw.2) d ≠ [] := by
  intro cells
  induction cells with
  | nil =>
    intro d hd
    rcases hd with hd | hd
    · exact hd
    · simp at hd
  | cons c cells ih =>
    intro d hd
    rw [List.foldl_cons]
    cases c with
    | none =>
      refine ih d ?_
      rcases hd with hd | hd
      · exact Or.inl hd
      · simp only [List.any_cons] at hd
        simp only [Option.isSome_none, Bool.false_or] at hd
        exact Or.inr hd
    | some lw => exact ih _ (Or.inl dictAdd_ne_nil)

theorem votersOf_ne_nil_of_any {cells : List (Option (String × ℚ))}
    (h : cells.any Option.isSome = true) : votersOf cells ≠ [] := by
  rw [votersOf]
  exact votersOf_ne_nil cells [] (Or.inr h)

theorem ensembleDecision_some_margin {cells : List (Option (String × ℚ))}
    {l : String} {marg : ℚ}
    (h : ensembleDecision cells = some (l, marg)) : 0 < marg := by
  rw [ensembleDecision] at h
  cases hmv : maxVoter (votersOf cells) with
  | none => rw [hmv] at h; cases h
  | some mv =>
    rw [hmv] at h
    dsimp only at h
    by_cases hpos : 0 < mv.2 - (sumVotes (votersOf cells) - mv.2)
    · rw [if_pos hpos] at h
      injection h with h2
      injection h2 with h3 h4
      rw [← h4]
      exact hpos
    · rw [if_neg hpos] at h; cases h

theorem ensembleDecision_none_of {cells : List (Option (String × ℚ))}
    (hm : marginOf cells ≤ 0) :
    ensembleDecision cells = none := by
  rw [ensembleDecision]
  cases hmv : maxVoter (votersOf cells) with
  | none => rfl
  | some mv =>
    dsimp only
    rw [marginOf, hmv] at hm
    rw [if_neg (by exact fun hpos => absurd hm (not_le.mpr hpos))]

/-! ## The sigmoid at its default slope and midpoint -/

theorem sigmoid_one_one (x : ℝ) :
    sigmoid 1 1 x = 1 / (1 + Real.exp (1 - x)) := by
  rw [sigmoid, show -(1 : ℝ) * x + 1 = 1 - x from by ring]

theorem sigmoid_one_one_lt_one (x : ℝ) : sigmoid 1 1 x < 1 := by
  rw [sigmoid]
  have h := Real.exp_pos (-1 * x + 1)
  rw [div_lt_one (by linarith)]
  linarith

theorem sigmoid_one_one_gt (x : ℝ) (hx : 0 < x) :
    1 / (1 + Real.exp 1) < sigmoid 1 1 x := by
  rw [sigmoid_one_one]
  have h1 : Real.exp (1 - x) < Real.exp 1 := Real.exp_lt_exp.mpr (by linarith)
  have h2 : 0 < 1 + Real.exp (1 - x) := by positivity
  exact one_div_lt_one_div_of_lt h2 (by linarith)

/-! ## C1: the emitted confidence -/

/-- C1 (amended): whenever `weakly_supervise` emits a pair for a record, the
confidence is the sigmoid of the positive raw margin with slope 1 and
midpoint 1, i.e. `1 / (1 + e^{1 - margin})` — not `1 / (1 + e^{-margin})` —
and therefore lies strictly between `1 / (1 + e)` and `1`; it exceeds `0.5`
only when the margin exceeds 1. -/
theorem C1_sigmoid_confidence (m : CNLM)
    (outR : List (String × Option (String × ℝ))) (st : CNLM) (r l : String)
    (c : ℝ) (hok : weakly_supervise m = .ok (outR, st))
    (hmem : (r, some (l, c)) ∈ outR) :
    ∃ marg : ℚ, 0 < marg ∧ c = sigmoid 1 1 (marg : ℝ)
      ∧ c = 1 / (1 + Real.exp (1 - (marg : ℝ)))
      ∧ 1 / (1 + Real.exp 1) < c ∧ c < 1 := by
  rw [weakly_supervise] at hok
  cases hcore : weaklySuperviseCore m with
  | error e => rw [hcore] at hok; cases hok
  | ok p =>
    obtain ⟨out, st0⟩ := p
    rw [hcore] at hok
    dsimp only at hok
    injection hok with h2
    injection h2 with h3 h4
    rw [← h3] at hmem
    obtain ⟨⟨r0, d0⟩, hmem0, heq⟩ := List.mem_map.mp hmem
    injection heq with hr0 hd0
    cases d0 with
    | none => simp at hd0
    | some lw =>
      obtain ⟨l0, marg⟩ := lw
      dsimp only [Option.map] at hd0
      injection hd0 with hd1
      injection hd1 with hl hc
      obtain ⟨stats, m1, vs, hq, hlen, hmap, hst, hout⟩ :=
        core_ok_destruct hcore
      rw [hout] at hmem0
      obtain ⟨r1, hr1, heq1⟩ := List.mem_map.mp hmem0
      injection heq1 with hra hrd
      have hpos : 0 < marg := ensembleDecision_some_margin hrd
      have hposR : (0 : ℝ) < (marg : ℝ) := by exact_mod_cast hpos
      refine ⟨marg, hpos, hc.symm, ?_, ?_, ?_⟩
      · rw [← hc, sigmoid_one_one]
      · rw [← hc]; exact sigmoid_one_one_gt _ hposR
      · rw [← hc]; exact sigmoid_one_one_lt_one _

/-- Counterexample to C1 as stated: on `M1` the record `"r1"` is emitted
with margin 1 and confidence `sigmoid(1) = 1/2`, which is neither
`1 / (1 + e^{-1})` nor strictly between `0.5` and `1`. -/
theorem C1_sigmoid_confidence_counterexample :
    ws_output M1 = some [("r1", some ("a", sigmoid 1 1 1))]
    ∧ sigmoid 1 1 1 = 1 / 2
    ∧ ¬ (1 / 2 < sigmoid 1 1 1 ∧ sigmoid 1 1 1 < 1)
    ∧ sigmoid 1 1 1 ≠ 1 / (1 + Real.exp (-1)) := by
  have hc : weaklySuperviseCore M1 = .ok (M1coreOut, M1state) := by
    with_unfolding_all rfl
  have hs : sigmoid 1 1 1 = 1 / 2 := by
    rw [sigmoid, show -(1 : ℝ) * 1 + 1 = 0 from by ring, Real.exp_zero]
    norm_num
  refine ⟨?_, hs, ?_, ?_⟩
  · rw [ws_output, weakly_supervise, hc]
    dsimp only
    rw [show M1coreOut = [("r1", some ("a", (1 : ℚ)))] from rfl]
    simp [Rat.cast_one]
    exact ⟨M1state, rfl⟩
  · intro hcontra
    rw [hs] at hcontra
    exact absurd hcontra.1 (lt_irrefl _)
  · rw [hs]
    intro h
    have hne : Real.exp (-1 : ℝ) ≠ 1 := by
      rw [Ne, Real.exp_eq_one_iff]
      norm_num
    have hden : (1 : ℝ) + Real.exp (-1) ≠ 0 := by positivity
    apply hne
    field_simp at h
    linarith

/-- Witness for C1 at the concrete matrix `M1` (emitted margin 1). -/
theorem C1_sigmoid_confidence_witness :
    ∃ marg : ℚ, 0 < marg
      ∧ sigmoid 1 1 ((1 : ℚ) : ℝ) = sigmoid 1 1 (marg : ℝ)
      ∧ sigmoid 1 1 ((1 : ℚ) : ℝ) = 1 / (1 + Real.exp (1 - (marg : ℝ)))
      ∧ 1 / (1 + Real.exp 1) < sigmoid 1 1 ((1 : ℚ) : ℝ)
      ∧ sigmoid 1 1 ((1 : ℚ) : ℝ) < 1 :=
  C1_sigmoid_confidence M1
    [("r1", some ("a", sigmoid 1 1 ((1 : ℚ) : ℝ)))] M1state "r1" "a"
    (sigmoid 1 1 ((1 : ℚ) : ℝ))
    (by rw [weakly_supervise, show weaklySuperviseCore M1
        = .ok (M1coreOut, M1state) from by with_unfolding_all rfl]
        rfl)
    (List.mem_singleton.mpr rfl)

/-! ## C2: abstaining records stay in the output with a null value -/

/-- C2 (amended): a record of the universe that received at least one vote
but whose margin is not positive is present in the returned series and maps
to the null decision (no label, no confidence); it is not dropped.  (Only
records with no votes at all are absent.) -/
theorem C2_abstain_null_present (m : CNLM)
    (out : List (String × Option (String × ℚ))) (st : CNLM) (r : String)
    (hok : weaklySuperviseCore m = .ok (out, st)) (hr : r ∈ m.records)
    (hvote : (rowCells (wsColumns st.vectors_noisy) r).any Option.isSome = true)
    (hmargin : marginOf (rowCells (wsColumns st.vectors_noisy) r) ≤ 0) :
    (r, (none : Option (String × ℚ))) ∈ out
    ∧ ∀ d, (r, d) ∈ out → d = none := by
  obtain ⟨stats, m1, vs, hq, hlen, hmap, hst, hout⟩ := core_ok_destruct hok
  have hrec : m1.records = m.records := (quality_metrics_frame hq).2.2
  have hvote2 : (rowCells (wsColumns vs) r).any Option.isSome = true := by
    rw [hst] at hvote; exact hvote
  have hmargin2 : marginOf (rowCells (wsColumns vs) r) ≤ 0 := by
    rw [hst] at hmargin; exact hmargin
  have hdec : ensembleDecision (rowCells (wsColumns vs) r) = none :=
    ensembleDecision_none_of hmargin2
  have hmemf : r ∈ m1.records.filter
      (fun r => (rowCells (wsColumns vs) r).any Option.isSome) :=
    List.mem_filter.mpr ⟨by rw [hrec]; exact hr, by simpa using hvote2⟩
  constructor
  · rw [hout]
    refine List.mem_map.mpr ⟨r, hmemf, ?_⟩
    rw [hdec]
  · intro d hd
    rw [hout] at hd
    obtain ⟨r1, hr1, heq⟩ := List.mem_map.mp hd
    injection heq with h1 h2
    rw [← h2, h1]
    exact hdec

/-- Counterexample to C2 as stated: on `M3` both records receive two equal
weighted votes (margin 0) and are PRESENT in the returned series with a
null value, not absent from it. -/
theorem C2_abstain_null_present_counterexample :
    core_output M3 = some [("r1", none), ("r2", none)]
    ∧ (rowCells (wsColumns M3state.vectors_noisy) "r1").any Option.isSome
        = true
    ∧ marginOf (rowCells (wsColumns M3state.vectors_noisy) "r1") = 0 :=
  ⟨by with_unfolding_all rfl, by with_unfolding_all rfl,
   by with_unfolding_all rfl⟩

/-- Witness for C2 at the concrete matrix `M3` and record `"r1"`. -/
theorem C2_abstain_null_present_witness :
    ("r1", (none : Option (String × ℚ))) ∈ M3coreOut
    ∧ ∀ d, ("r1", d) ∈ M3coreOut → d = none :=
  C2_abstain_null_present M3 M3coreOut M3state "r1"
    (by with_unfolding_all rfl) (by with_unfolding_all decide)
    (by with_unfolding_all rfl) (by with_unfolding_all decide)

/-! ## C3: absent confidence acts as neutral weight 1 -/

/-- C3: an association constructed with an absent confidence carries the
neutral weight 1 (modelled from the spec for the out-of-`src/` constructor),
so the weighted vote `weakly_supervise` computes for it is exactly the
emitting source's precision for its label. -/
theorem C3_absent_confidence_neutral (stats : List QualityRow)
    (id rec l : String) (prec : ℚ) (h : stats_lkp stats id l = some prec) :
    predFor stats id (mkAssociation rec (some l) none) = .ok (l, prec) := by
  simp only [predFor, mkAssociation]
  rw [show (none : Option ℚ).getD 1 = 1 from rfl, h]
  dsimp only
  rw [mul_one]

/-- Witness for C3 with the quality table of `M1`. -/
theorem C3_absent_confidence_neutral_witness :
    stats_lkp T1 "s1" "a" = some 1
    ∧ predFor T1 "s1" (mkAssociation "r9" (some "a") none) = .ok ("a", 1) :=
  ⟨by with_unfolding_all rfl,
   C3_absent_confidence_neutral T1 "s1" "r9" "a" 1 (by with_unfolding_all rfl)⟩

/-! ## C4: a source with two associations for one record -/

/-- C4 (amended): `weakly_supervise` never counts two associations of one
source for the same record as independent votes — when it succeeds, every
vector's `record` index is duplicate-free (otherwise the pandas column
assignment would have raised the duplicate-axis error and the call fails). -/
theorem C4_no_duplicate_records (m : CNLM)
    (out : List (String × Option (String × ℚ))) (st : CNLM)
    (hok : weaklySuperviseCore m = .ok (out, st)) :
    ∀ v ∈ st.vectors_noisy, noDupRecords v := by
  obtain ⟨stats, m1, vs, hq, hlen, hmap, hst, hout⟩ := core_ok_destruct hok
  intro v hv
  rw [hst] at hv
  have hv2 : v ∈ vs := hv
  obtain ⟨v0, hv0, hwv⟩ := mapE_ok_mem hmap v hv2
  exact wsVector_ok_nodup hwv

/-- Counterexample to C4 as stated: on `M4`, whose only source emits two
labels for the record `"r1"`, `weakly_supervise` does not succeed — it
raises the pandas duplicate-axis reindexing error. -/
theorem C4_no_duplicate_records_counterexample :
    weaklySuperviseCore M4 = .error .duplicateAxis := by
  with_unfolding_all rfl

/-- Witness for C4 at the concrete matrix `M1` and its single (processed)
vector. -/
theorem C4_no_duplicate_records_witness :
    noDupRecords
      ⟨"s1", [⟨"r1", some "a", 1⟩], false, some [("a", 1)],
        [("a", ⟨1, 0⟩)], []⟩ :=
  C4_no_duplicate_records M1 M1coreOut M1state (by with_unfolding_all rfl)
    ⟨"s1", [⟨"r1", some "a", 1⟩], false, some [("a", 1)], [("a", ⟨1, 0⟩)], []⟩
    (by with_unfolding_all decide)

/-! ## C5: which per-vector state each pass writes -/

theorem wsFrame_of_exceptQuality {vs2 vs : List SourceVector}
    (h : vs2.map exceptQuality = vs.map exceptQuality) :
    vs2.map wsFrame = vs.map wsFrame := by
  have h2 := congrArg
    (List.map (fun t : String × List Association × Bool
        × Option (List (String × ℚ)) × List (String × QuantityEntry) =>
      (t.1, t.2.1, t.2.2.1, t.2.2.2.2))) h
  rw [List.map_map, List.map_map] at h2
  exact h2

/-- C5 (amended): `quality_metrics` writes only the per-vector `quality`
slots, `quantity_metrics` only the `quantity` slots (associations rows, the
prediction column, and the matrix's reference/records are untouched);
`weakly_supervise` additionally writes the `"prediction"` column into the
associations dataframe of every processed vector, leaving the association
rows, identifiers, emptiness flags and `quantity` slots unchanged — the
associations table is therefore NOT identical before and after a
`weakly_supervise` call. -/
theorem C5_written_state :
    (∀ m t m1, quality_metrics m = .ok (t, m1) →
      m1.vectors_noisy.map exceptQuality = m.vectors_noisy.map exceptQuality
      ∧ m1.vector_reference = m.vector_reference ∧ m1.records = m.records)
    ∧ (∀ m t m1, quantity_metrics m = .ok (t, m1) →
      m1.vectors_noisy.map exceptQuantity = m.vectors_noisy.map exceptQuantity
      ∧ m1.vector_reference = m.vector_reference ∧ m1.records = m.records)
    ∧ (∀ m out st, weaklySuperviseCore m = .ok (out, st) →
      st.vectors_noisy.map wsFrame = m.vectors_noisy.map wsFrame
      ∧ st.vector_reference = m.vector_reference ∧ st.records = m.records) := by
  refine ⟨fun m t m1 h => quality_metrics_frame h,
    fun m t m1 h => quantity_metrics_frame h, ?_⟩
  intro m out st hok
  obtain ⟨stats, m1, vs, hq, hlen, hmap, hst, hout⟩ := core_ok_destruct hok
  have hqf := quality_metrics_frame hq
  have h1 : vs.map wsFrame = m1.vectors_noisy.map wsFrame :=
    mapE_ok_map hmap (fun a b hab => wsVector_ok_wsFrame hab)
  refine ⟨?_, ?_, ?_⟩
  · rw [hst]
    show vs.map wsFrame = m.vectors_noisy.map wsFrame
    rw [h1]
    exact wsFrame_of_exceptQuality hqf.1
  · rw [hst]
    exact hqf.2.1
  · rw [hst]
    exact hqf.2.2

/-- Counterexample to C5 as stated: on `M1` the associations table of the
source `"s1"` (its rows plus the `"prediction"` column) differs before and
after the `weakly_supervise` call. -/
theorem C5_written_state_counterexample :
    weaklySuperviseCore M1 = .ok (M1coreOut, M1state)
    ∧ M1state.vectors_noisy.map assocTable ≠ M1.vectors_noisy.map assocTable :=
  ⟨by with_unfolding_all rfl, by with_unfolding_all decide⟩

/-- Witness for C5 at the concrete matrices `M1` and `M6`. -/
theorem C5_written_state_witness :
    (M1q.vectors_noisy.map exceptQuality = M1.vectors_noisy.map exceptQuality
      ∧ M1q.vector_reference = M1.vector_reference ∧ M1q.records = M1.records)
    ∧ (M6q.vectors_noisy.map exceptQuantity
          = M6.vectors_noisy.map exceptQuantity
      ∧ M6q.vector_reference = M6.vector_reference ∧ M6q.records = M6.records)
    ∧ (M1state.vectors_noisy.map wsFrame = M1.vectors_noisy.map wsFrame
      ∧ M1state.vector_reference = M1.vector_reference
      ∧ M1state.records = M1.records) :=
  ⟨C5_written_state.1 M1 T1 M1q (by with_unfolding_all rfl),
   C5_written_state.2.1 M6 T6 M6q (by with_unfolding_all rfl),
   C5_written_state.2.2 M1 M1coreOut M1state (by with_unfolding_all rfl)⟩

end WeakNlp
